import Mathlib

/-!
Verification of the Zeus superblock header
(`src/libos/librdma/mem/include/zeus/zeussuperblockheader.h`,
class `ZeusSuperblockHeaderHelper`).

The C++ class is embedded shallowly:

* Pointers and `size_t`/`uint64_t` values are modelled as `Nat`.  No claim
  exercises wrap-around of machine arithmetic (all pointers handled by the
  claims lie at or above the slot-region start and far below `2^64`), so
  subtraction is `Nat` truncated subtraction and the `IN_USE` bit operations
  are written as arithmetic on the low bit, which agrees with the `uint64_t`
  operations on every value below `2^64`:
  `e & ~IN_USE = e - e % 2`, `e | IN_USE = e + 1 - e % 2`, `e & IN_USE = e % 2`.
* `FreeSLList` is the intrusive LIFO singly linked list of Hoard:
  `insert` pushes at the head, `get` pops the head (returning null on an
  empty list, without mutation), `clear` empties the list.  It is modelled
  as a `List Nat` of the inserted addresses.
* The pin table `uint64_t _pinned[MAX_PINNED]` is a `List Nat` of length
  `MAX_PINNED`; the loops `for (int i = 0; i < MAX_PINNED; i++)` become
  structural recursion over that list (first match wins, as in the source).
  The source never writes an initializer for `_pinned`; the model takes the
  fresh table to be all zeroes (memory freshly obtained from the OS), which
  is the reading the rest of the source relies on (`pin` looks for a zero
  entry, `free`/`unpin` treat zero entries as empty).
* The fatal `assert(0)` exits of `pin` (table full) and `unpin` (no matching
  entry) are modelled by returning `none`; all other operations are total.
* The hardware registration `_mr = ibv_reg_mr(...)`, guarded by
  `rdma_get_pd() != NULL`, is modelled by a `Bool` field `mr` recording
  whether a (non-null) handle was obtained; the destructor's effects are
  reified so that its unconditional `ibv_dereg_mr(_mr)` call is visible.
-/

namespace Zeus

/-- `#define MAX_PINNED 100`. -/
def MAX_PINNED : Nat := 100

/-- `#define IN_USE 1`. -/
def IN_USE : Nat := 1

/-- `enum { Alignment = 16 }`. -/
def Alignment : Nat := 16

/-- `e & ~IN_USE` (clear the low bit; agrees with the `uint64_t` operation
for every `e < 2^64`). -/
def clearInUse (e : Nat) : Nat := e - e % 2

/-- `e | IN_USE` (set the low bit). -/
def orInUse (e : Nat) : Nat := e + 1 - e % 2

/-- `e & IN_USE` (the low bit). -/
def andInUse (e : Nat) : Nat := e % 2

/-- `HL::align<Alignment>(n)`: round `n` up to a multiple of `a`. -/
def alignUp (a n : Nat) : Nat := ((n + a - 1) / a) * a

/-- `_objectSizeIsPowerOfTwo = !(sz & (sz - 1)) && sz` (constructor
initializer list). -/
def isPowerOfTwoFlag (sz : Nat) : Bool := (sz &&& (sz - 1) == 0) && (sz != 0)

/-- The mutable bookkeeping state of one `ZeusSuperblockHeaderHelper`.
The fields `_magicNumber` (with it `isValid`, always true for a live,
uncorrupted header), `_theLock`, `_owner`, `_prev`, `_next` and `_padding`
carry no allocation state and are not modelled; `_mr` is modelled by the
`Bool` `mr` (a handle was obtained). -/
structure SBState where
  objectSize : Nat
  objectSizeIsPowerOfTwo : Bool
  totalObjects : Nat
  reapableObjects : Nat
  objectsFree : Nat
  start : Nat
  position : Nat
  pinned : List Nat
  freeList : List Nat
  mr : Bool
deriving DecidableEq, Repr

/-- The constructor `ZeusSuperblockHeaderHelper(sz, bufferSize, start)`:
`_totalObjects = bufferSize / sz`, `_reapableObjects = _objectsFree =
_totalObjects`, `_position = start`, and `_mr` is obtained exactly when a
process-wide protection domain exists (`rdma_get_pd() != NULL`, the
parameter `hasPd`). -/
def mkState (sz bufferSize start : Nat) (hasPd : Bool) : SBState :=
  { objectSize := sz
    objectSizeIsPowerOfTwo := isPowerOfTwoFlag sz
    totalObjects := bufferSize / sz
    reapableObjects := bufferSize / sz
    objectsFree := bufferSize / sz
    start := start
    position := start
    pinned := List.replicate MAX_PINNED 0
    freeList := []
    mr := hasPd }

/-- `clear()`: empty the free list, reset both counters to `_totalObjects`,
reset the cursor to `HL::align<Alignment>(_start)`. -/
def clear (s : SBState) : SBState :=
  { s with freeList := []
           objectsFree := s.totalObjects
           reapableObjects := s.totalObjects
           position := alignUp Alignment s.start }

/-- `reapAlloc()`: if `_reapableObjects > 0`, return `_position` and advance
it by `_objectSize`, decrementing both counters; otherwise return null. -/
def reapAlloc (s : SBState) : Option Nat × SBState :=
  if 0 < s.reapableObjects then
    (some s.position,
      { s with position := s.position + s.objectSize
               reapableObjects := s.reapableObjects - 1
               objectsFree := s.objectsFree - 1 })
  else (none, s)

/-- `freeListAlloc()`: pop the head of `_freeList`; decrement
`_objectsFree` only when an entry was obtained. -/
def freeListAlloc (s : SBState) : Option Nat × SBState :=
  match s.freeList with
  | [] => (none, s)
  | p :: rest => (some p, { s with freeList := rest, objectsFree := s.objectsFree - 1 })

/-- `malloc()`: try `reapAlloc()` first, fall back to `freeListAlloc()`. -/
def malloc (s : SBState) : Option Nat × SBState :=
  match reapAlloc s with
  | (some p, s1) => (some p, s1)
  | (none, s1) => freeListAlloc s1

/-- The scan loop of `free(ptr)`: find the first entry with
`(_pinned[i] & ~IN_USE) == ptr` and clear its `IN_USE` flag, returning the
updated table; `none` when no entry matches.  Note that the source compares
the entries against the raw `ptr`, without normalizing it. -/
def freeScan : List Nat → Nat → Option (List Nat)
  | [], _ => none
  | e :: rest, ptr =>
    if clearInUse e = ptr then some (clearInUse e :: rest)
    else (freeScan rest ptr).map fun l => e :: l

/-- `free(ptr)` (the release operation): if some pin-table entry matches
`ptr`, only clear that entry's `IN_USE` flag (deferred free); otherwise
insert `ptr` into the free list, increment `_objectsFree`, and `clear()`
the superblock when it just became fully free. -/
def free (s : SBState) (ptr : Nat) : SBState :=
  match freeScan s.pinned ptr with
  | some tbl => { s with pinned := tbl }
  | none =>
    let s1 := { s with freeList := ptr :: s.freeList, objectsFree := s.objectsFree + 1 }
    if s1.objectsFree = s1.totalObjects then clear s1 else s1

/-- `normalize(ptr)`: subtract from `ptr` the remainder of
`offset = ptr - _start` by `_objectSize`, using the mask fast path when the
object size is a power of two. -/
def normalize (s : SBState) (ptr : Nat) : Nat :=
  let offset := ptr - s.start
  if s.objectSizeIsPowerOfTwo then ptr - (offset &&& (s.objectSize - 1))
  else ptr - offset % s.objectSize

/-- `getSize(ptr)`: bytes remaining in `ptr`'s slot, same two paths as
`normalize`. -/
def getSize (s : SBState) (ptr : Nat) : Nat :=
  let offset := ptr - s.start
  if s.objectSizeIsPowerOfTwo then s.objectSize - (offset &&& (s.objectSize - 1))
  else s.objectSize - offset % s.objectSize

/-- The scan loop of `pin`: replace the first zero entry by
`obj | IN_USE`; `none` when the table holds no zero entry (the source then
hits `assert(0)`). -/
def pinScan : List Nat → Nat → Option (List Nat)
  | [], _ => none
  | e :: rest, obj =>
    if e = 0 then some (orInUse obj :: rest)
    else (pinScan rest obj).map fun l => e :: l

/-- `pin(ptr)`: store `normalize(ptr) | IN_USE` in the first empty pin-table
entry; `none` models the fatal `assert(0)` when the table is full. -/
def pin (s : SBState) (ptr : Nat) : Option SBState :=
  (pinScan s.pinned (normalize s ptr)).map fun tbl => { s with pinned := tbl }

/-- The scan loop of `unpin`: find the first entry with
`(_pinned[i] & ~IN_USE) == obj`, zero it, and report whether its `IN_USE`
flag was clear; `none` when no entry matches. -/
def unpinScan : List Nat → Nat → Option (Bool × List Nat)
  | [], _ => none
  | e :: rest, obj =>
    if clearInUse e = obj then some ((andInUse e == 0), 0 :: rest)
    else (unpinScan rest obj).map fun r => (r.1, e :: r.2)

/-- `unpin(ptr)`: locate the entry for `normalize(ptr)`.  If its `IN_USE`
flag was already clear, perform the deferred reclamation (insert the
normalized address into the free list, increment `_objectsFree`, `clear()`
when fully free).  In either case the entry is zeroed.  `none` models the
fatal `assert(0)` when no entry matches. -/
def unpin (s : SBState) (ptr : Nat) : Option SBState :=
  let obj := normalize s ptr
  match unpinScan s.pinned obj with
  | none => none
  | some (wasClear, tbl) =>
    if wasClear then
      let s1 := { s with freeList := obj :: s.freeList, objectsFree := s.objectsFree + 1 }
      let s2 := if s1.objectsFree = s1.totalObjects then clear s1 else s1
      some { s2 with pinned := tbl }
    else some { s with pinned := tbl }

/-- The observable effects of the destructor
`~ZeusSuperblockHeaderHelper() { clear(); ibv_dereg_mr(_mr); }`. -/
structure DtorEffects where
  deregCalled : Bool
  deregHandleWasNull : Bool
deriving DecidableEq, Repr

/-- The destructor: runs `clear()` and then calls `ibv_dereg_mr(_mr)`
unconditionally, even when `_mr` is still the null handle. -/
def destruct (s : SBState) : SBState × DtorEffects :=
  (clear s, { deregCalled := true, deregHandleWasNull := !s.mr })

/-- Results of `n` successive `malloc()` calls (no other operation
interleaved). -/
def mallocTrace : Nat → SBState → List (Option Nat)
  | 0, _ => []
  | n + 1, s => (malloc s).1 :: mallocTrace n (malloc s).2

/-- Pin a list of addresses in order, stopping at the first fatal pin. -/
def pinAll : List Nat → SBState → Option SBState
  | [], s => some s
  | p :: ps, s =>
    match pin s p with
    | none => none
    | some s1 => pinAll ps s1

/-- Constructor preconditions, as asserted by the constructor:
`HL::align<Alignment>(start) == start`, `_objectSize >= Alignment`,
`_totalObjects == 1 || _objectSize % Alignment == 0`; additionally the slot
region does not sit at address zero (a returned null pointer is the
allocator's exhausted signal, so a real slot region never starts at 0). -/
def WF (sz B start : Nat) : Prop :=
  Alignment ≤ sz ∧ start % Alignment = 0 ∧ 0 < start ∧
    (B / sz = 1 ∨ sz % Alignment = 0)

/-- The slot bases handed out so far by the reap cursor. -/
def touched (s : SBState) : List Nat :=
  (List.range (s.totalObjects - s.reapableObjects)).map fun k =>
    s.start + k * s.objectSize

/-- Addresses recorded in the occupied (nonzero) pin-table entries. -/
def tblAddrs (l : List Nat) : List Nat :=
  (l.filter fun e => e != 0).map clearInUse

/-- Addresses of the deferred-free entries: occupied entries whose `IN_USE`
flag is clear. -/
def defAddrs (l : List Nat) : List Nat :=
  (l.filter fun e => e != 0 && e % 2 == 0).map clearInUse

end Zeus

namespace Zeus

/-! Arithmetic facts about the `IN_USE` bit operations on even values
(slot base addresses are even: the slot region is 16-aligned and every slot
offset is a multiple of the object size, itself a multiple of 16 unless the
superblock holds a single object starting at the aligned start). -/

lemma clearInUse_of_even {b : Nat} (h : b % 2 = 0) : clearInUse b = b := by
  unfold clearInUse; omega

lemma orInUse_of_even {b : Nat} (h : b % 2 = 0) : orInUse b = b + 1 := by
  unfold orInUse; omega

lemma clearInUse_orInUse {b : Nat} (h : b % 2 = 0) : clearInUse (orInUse b) = b := by
  unfold clearInUse orInUse; omega

lemma andInUse_orInUse {b : Nat} (h : b % 2 = 0) : andInUse (orInUse b) = 1 := by
  unfold andInUse orInUse; omega

lemma andInUse_of_even {b : Nat} (h : b % 2 = 0) : andInUse b = 0 := h

lemma clearInUse_zero : clearInUse 0 = 0 := rfl

lemma clearInUse_ne_zero {e p : Nat} (h : clearInUse e = p) (hp : 0 < p) : e ≠ 0 := by
  intro h0; rw [h0] at h; unfold clearInUse at h; omega

lemma alignUp_of_aligned {n : Nat} (h : n % Alignment = 0) : alignUp Alignment n = n := by
  simp only [alignUp, Alignment] at h ⊢; omega

/-- The constructor's power-of-two test is exact: when
`!(sz & (sz - 1)) && sz` holds, `sz` is a power of two. -/
lemma pow_of_isPowerOfTwoFlag {sz : Nat} (h : isPowerOfTwoFlag sz = true) :
    sz = 2 ^ Nat.log 2 sz := by
  have h0 : sz ≠ 0 := by
    intro h0; rw [h0] at h; simp [isPowerOfTwoFlag] at h
  have hand : sz &&& (sz - 1) = 0 := by
    simp only [isPowerOfTwoFlag, Bool.and_eq_true, beq_iff_eq, bne_iff_ne] at h
    exact h.1
  set m := Nat.log 2 sz with hm
  have h1 : 2 ^ m ≤ sz := Nat.pow_log_le_self 2 h0
  have h2 : sz < 2 ^ (m + 1) := Nat.lt_pow_succ_log_self (by norm_num) sz
  by_contra hne
  have hr : 2 ^ m < sz := lt_of_le_of_ne h1 fun e => hne e.symm
  have hp : 0 < 2 ^ m := Nat.pos_pow_of_pos m (by norm_num)
  have hd1 : sz / 2 ^ m = 1 := by
    apply Nat.div_eq_of_lt_le (by omega)
    have : 2 * 2 ^ m = 2 ^ (m + 1) := by ring
    omega
  have hd2 : (sz - 1) / 2 ^ m = 1 := by
    apply Nat.div_eq_of_lt_le (by omega)
    have : 2 * 2 ^ m = 2 ^ (m + 1) := by ring
    omega
  have hb1 : sz.testBit m = true := by
    rw [Nat.testBit_to_div_mod, hd1]; rfl
  have hb2 : (sz - 1).testBit m = true := by
    rw [Nat.testBit_to_div_mod, hd2]; rfl
  have : (sz &&& (sz - 1)).testBit m = true := by
    rw [Nat.testBit_and, hb1, hb2]; rfl
  rw [hand] at this
  simp at this

/-- On the power-of-two fast path the mask computes exactly the modulo. -/
lemma and_mask_eq_mod {sz : Nat} (h : isPowerOfTwoFlag sz = true) (n : Nat) :
    n &&& (sz - 1) = n % sz := by
  conv_lhs => rw [pow_of_isPowerOfTwoFlag h]
  conv_rhs => rw [pow_of_isPowerOfTwoFlag h]
  exact Nat.and_pow_two_sub_one_eq_mod n _

/-- Whichever path the flag selects, `normalize` subtracts
`(ptr - start) % objectSize`. -/
lemma normalize_eq_mod (s : SBState)
    (hpw : s.objectSizeIsPowerOfTwo = isPowerOfTwoFlag s.objectSize) (ptr : Nat) :
    normalize s ptr = ptr - (ptr - s.start) % s.objectSize := by
  unfold normalize
  cases hf : s.objectSizeIsPowerOfTwo with
  | false => simp
  | true =>
    rw [hpw] at hf
    simp only [if_true]
    rw [and_mask_eq_mod hf]

/-- `normalize` maps every interior pointer of a slot to the slot's base. -/
lemma normalize_slot (s : SBState)
    (hpw : s.objectSizeIsPowerOfTwo = isPowerOfTwoFlag s.objectSize)
    (k j : Nat) (hj : j < s.objectSize) :
    normalize s (s.start + k * s.objectSize + j) = s.start + k * s.objectSize := by
  rw [normalize_eq_mod s hpw]
  have h1 : s.start + k * s.objectSize + j - s.start = k * s.objectSize + j := by omega
  have h2 : (k * s.objectSize + j) % s.objectSize = j := by
    rw [Nat.add_comm, Nat.add_mul_mod_self_right, Nat.mod_eq_of_lt hj]
  rw [h1, h2]
  omega

end Zeus

namespace Zeus

/-! Characterizations of the three pin-table scan loops. -/

lemma freeScan_none_iff (l : List Nat) (p : Nat) :
    freeScan l p = none ↔ ∀ e ∈ l, clearInUse e ≠ p := by
  induction l with
  | nil => simp [freeScan]
  | cons e rest ih =>
    by_cases h : clearInUse e = p
    · simp [freeScan, h]
    · simp [freeScan, h, Option.map_eq_none', ih]

lemma freeScan_some {l : List Nat} {p : Nat} {r : List Nat} (h : freeScan l p = some r) :
    ∃ l1 e l2, l = l1 ++ e :: l2 ∧ (∀ x ∈ l1, clearInUse x ≠ p) ∧ clearInUse e = p ∧
      r = l1 ++ p :: l2 := by
  induction l generalizing r with
  | nil => simp [freeScan] at h
  | cons e rest ih =>
    by_cases he : clearInUse e = p
    · rw [freeScan, if_pos he] at h
      refine ⟨[], e, rest, by simp, by simp, he, ?_⟩
      simp only [Option.some.injEq] at h
      rw [← h, he]
      simp
    · rw [freeScan, if_neg he, Option.map_eq_some'] at h
      obtain ⟨r1, hr1, rfl⟩ := h
      obtain ⟨l1, e1, l2, hl, hmiss, hhit, rfl⟩ := ih hr1
      exact ⟨e :: l1, e1, l2, by rw [hl]; rfl, by simpa [he] using hmiss, hhit, rfl⟩

lemma pinScan_none_iff (l : List Nat) (obj : Nat) :
    pinScan l obj = none ↔ ∀ e ∈ l, e ≠ 0 := by
  induction l with
  | nil => simp [pinScan]
  | cons e rest ih =>
    by_cases h : e = 0
    · simp [pinScan, h]
    · simp [pinScan, h, Option.map_eq_none', ih]

lemma pinScan_some {l : List Nat} {obj : Nat} {r : List Nat} (h : pinScan l obj = some r) :
    ∃ l1 l2, l = l1 ++ 0 :: l2 ∧ (∀ x ∈ l1, x ≠ 0) ∧ r = l1 ++ orInUse obj :: l2 := by
  induction l generalizing r with
  | nil => simp [pinScan] at h
  | cons e rest ih =>
    by_cases he : e = 0
    · rw [pinScan, if_pos he] at h
      simp only [Option.some.injEq] at h
      exact ⟨[], rest, by simp [he], by simp, by simp [← h]⟩
    · rw [pinScan, if_neg he, Option.map_eq_some'] at h
      obtain ⟨r1, hr1, rfl⟩ := h
      obtain ⟨l1, l2, hl, hmiss, rfl⟩ := ih hr1
      exact ⟨e :: l1, l2, by rw [hl]; rfl, by simpa [he] using hmiss, rfl⟩

lemma unpinScan_none_iff (l : List Nat) (obj : Nat) :
    unpinScan l obj = none ↔ ∀ e ∈ l, clearInUse e ≠ obj := by
  induction l with
  | nil => simp [unpinScan]
  | cons e rest ih =>
    by_cases h : clearInUse e = obj
    · simp [unpinScan, h]
    · simp [unpinScan, h, Option.map_eq_none', ih]

lemma unpinScan_some {l : List Nat} {obj : Nat} {b : Bool} {r : List Nat}
    (h : unpinScan l obj = some (b, r)) :
    ∃ l1 e l2, l = l1 ++ e :: l2 ∧ (∀ x ∈ l1, clearInUse x ≠ obj) ∧ clearInUse e = obj ∧
      b = (andInUse e == 0) ∧ r = l1 ++ 0 :: l2 := by
  induction l generalizing b r with
  | nil => simp [unpinScan] at h
  | cons e rest ih =>
    by_cases he : clearInUse e = obj
    · rw [unpinScan, if_pos he] at h
      simp only [Option.some.injEq, Prod.mk.injEq] at h
      exact ⟨[], e, rest, by simp, by simp, he, h.1.symm, by simp [← h.2]⟩
    · rw [unpinScan, if_neg he, Option.map_eq_some'] at h
      obtain ⟨⟨b1, r1⟩, hr1, heq⟩ := h
      simp only [Prod.mk.injEq] at heq
      obtain ⟨l1, e1, l2, hl, hmiss, hhit, hb, rfl⟩ := ih hr1
      exact ⟨e :: l1, e1, l2, by rw [hl]; rfl, by simpa [he] using hmiss, hhit,
        heq.1 ▸ hb, by rw [← heq.2]; rfl⟩

/-! Facts about `tblAddrs`, `defAddrs` and `touched`. -/

lemma tblAddrs_append (l1 l2 : List Nat) :
    tblAddrs (l1 ++ l2) = tblAddrs l1 ++ tblAddrs l2 := by
  simp [tblAddrs, List.filter_append]

lemma tblAddrs_cons_zero (l : List Nat) : tblAddrs (0 :: l) = tblAddrs l := by
  simp [tblAddrs]

lemma tblAddrs_cons_ne {e : Nat} (l : List Nat) (h : e ≠ 0) :
    tblAddrs (e :: l) = clearInUse e :: tblAddrs l := by
  simp [tblAddrs, h]

lemma mem_tblAddrs {x : Nat} {l : List Nat} :
    x ∈ tblAddrs l ↔ ∃ e ∈ l, e ≠ 0 ∧ clearInUse e = x := by
  simp only [tblAddrs, List.mem_map, List.mem_filter, bne_iff_ne]
  constructor
  · rintro ⟨e, ⟨he, hne⟩, rfl⟩; exact ⟨e, he, hne, rfl⟩
  · rintro ⟨e, he, hne, rfl⟩; exact ⟨e, ⟨he, hne⟩, rfl⟩

lemma defAddrs_append (l1 l2 : List Nat) :
    defAddrs (l1 ++ l2) = defAddrs l1 ++ defAddrs l2 := by
  simp [defAddrs, List.filter_append]

lemma defAddrs_cons_zero (l : List Nat) : defAddrs (0 :: l) = defAddrs l := by
  simp [defAddrs]

lemma defAddrs_cons_odd {e : Nat} (l : List Nat) (h : e % 2 = 1) :
    defAddrs (e :: l) = defAddrs l := by
  simp [defAddrs, h]

lemma defAddrs_cons_even {e : Nat} (l : List Nat) (h0 : e ≠ 0) (h2 : e % 2 = 0) :
    defAddrs (e :: l) = clearInUse e :: defAddrs l := by
  simp [defAddrs, h0, h2]

lemma mem_defAddrs {x : Nat} {l : List Nat} :
    x ∈ defAddrs l ↔ ∃ e ∈ l, e ≠ 0 ∧ e % 2 = 0 ∧ clearInUse e = x := by
  simp only [defAddrs, List.mem_map, List.mem_filter, Bool.and_eq_true, bne_iff_ne,
    beq_iff_eq]
  constructor
  · rintro ⟨e, ⟨he, hne, hev⟩, rfl⟩; exact ⟨e, he, hne, hev, rfl⟩
  · rintro ⟨e, he, hne, hev, rfl⟩; exact ⟨e, ⟨he, hne, hev⟩, rfl⟩

lemma mem_touched_iff {s : SBState} {x : Nat} :
    x ∈ touched s ↔ ∃ k, k < s.totalObjects - s.reapableObjects ∧
      x = s.start + k * s.objectSize := by
  simp only [touched, List.mem_map, List.mem_range]
  constructor
  · rintro ⟨k, hk, rfl⟩; exact ⟨k, hk, rfl⟩
  · rintro ⟨k, hk, rfl⟩; exact ⟨k, hk, rfl⟩

lemma touched_nodup {s : SBState} (hsz : 0 < s.objectSize) : (touched s).Nodup := by
  refine List.Nodup.map ?_ (List.nodup_range _)
  intro a b hab
  simp only at hab
  have : a * s.objectSize = b * s.objectSize := by omega
  exact Nat.eq_of_mul_eq_mul_right hsz this

lemma touched_length (s : SBState) :
    (touched s).length = s.totalObjects - s.reapableObjects := by
  simp [touched]

end Zeus

namespace Zeus

/-- The inductive invariant of a superblock constructed as
`mkState sz B start hasPd`, together with the ghost list `L` of live
(allocated and not yet released) slot bases.  `hpart` is the heart:
the slots handed out by the reap cursor are partitioned into live slots,
free-list slots, and deferred-free slots (pin-table entries whose `IN_USE`
flag has been cleared by a release). -/
structure Inv (sz B start : Nat) (hasPd : Bool) (s : SBState) (L : List Nat) : Prop where
  hsz : s.objectSize = sz
  hpw : s.objectSizeIsPowerOfTwo = isPowerOfTwoFlag sz
  htot : s.totalObjects = B / sz
  hmr : s.mr = hasPd
  hstart : s.start = start
  hreap : s.reapableObjects ≤ s.totalObjects
  hpos : s.position = s.start + (s.totalObjects - s.reapableObjects) * s.objectSize
  hof : s.objectsFree = s.reapableObjects + s.freeList.length
  hlen : s.pinned.length = MAX_PINNED
  hform : ∀ e ∈ s.pinned, e ≠ 0 →
    ∃ k, k < s.totalObjects ∧
      (e = orInUse (s.start + k * s.objectSize) ∨ e = s.start + k * s.objectSize)
  hnodup : (tblAddrs s.pinned).Nodup
  hflag : ∀ e ∈ s.pinned, andInUse e = 1 → clearInUse e ∈ L
  hpart : (L ++ s.freeList ++ defAddrs s.pinned).Perm (touched s)
  hfull : s.objectsFree = s.totalObjects →
    s.reapableObjects = s.totalObjects ∧ s.freeList = []

/-- The states reachable from a freshly constructed superblock under the
spec's calling protocol, with the ghost list `L` of currently live slot
bases.  The preconditions mirror the contracts of the specification:
`release(ptr)` is called only on a live address previously returned by
`allocate()` (double release is undefined behaviour and excluded);
`pin(ptr)` is called for a slot that is live and not already pinned (the
per-slot state machine of the spec has a single pinned flag per slot);
`unpin(ptr)` is called for a slot with a matching pin-table entry.
A failed `allocate()` is included (it leaves the state unchanged). -/
inductive Reach (sz B start : Nat) (hasPd : Bool) : SBState → List Nat → Prop
  | init : Reach sz B start hasPd (mkState sz B start hasPd) []
  | alloc_some {s L p s1} : Reach sz B start hasPd s L → malloc s = (some p, s1) →
      Reach sz B start hasPd s1 (p :: L)
  | alloc_none {s L s1} : Reach sz B start hasPd s L → malloc s = (none, s1) →
      Reach sz B start hasPd s1 L
  | release {s L p} : Reach sz B start hasPd s L → p ∈ L →
      Reach sz B start hasPd (free s p) (L.erase p)
  | pin_step {s L p s1} : Reach sz B start hasPd s L → normalize s p ∈ L →
      (∀ e ∈ s.pinned, e ≠ 0 → clearInUse e ≠ normalize s p) →
      pin s p = some s1 → Reach sz B start hasPd s1 L
  | unpin_step {s L p s1} : Reach sz B start hasPd s L →
      (∃ e ∈ s.pinned, e ≠ 0 ∧ clearInUse e = normalize s p) →
      unpin s p = some s1 → Reach sz B start hasPd s1 L

/-! Facts derived from `WF` and `Inv`. -/

lemma WF.sizePos {sz B start : Nat} (hw : WF sz B start) : 0 < sz := by
  have := hw.1; unfold Alignment at this; omega

lemma WF.baseEven {sz B start : Nat} (hw : WF sz B start) {k : Nat} (hk : k < B / sz) :
    (start + k * sz) % 2 = 0 := by
  obtain ⟨h16, hal, hpos, hmult⟩ := hw
  have hst : start % 2 = 0 := by unfold Alignment at hal; omega
  rcases hmult with h1 | h2
  · have : k = 0 := by omega
    subst this; simpa using hst
  · have : sz % 2 = 0 := by unfold Alignment at h2; omega
    have hdvd : 2 ∣ k * sz := Dvd.dvd.mul_left (Nat.dvd_of_mod_eq_zero this) k
    omega

lemma Inv.sz_pos {sz B start : Nat} {hasPd : Bool} {s : SBState} {L : List Nat}
    (hw : WF sz B start) (hinv : Inv sz B start hasPd s L) : 0 < s.objectSize := by
  rw [hinv.hsz]; exact hw.sizePos

/-- The partition permutation gives the count identity
`|L| + |freeList| + |deferred| = totalObjects - reapableObjects`. -/
lemma Inv.count {sz B start : Nat} {hasPd : Bool} {s : SBState} {L : List Nat}
    (hinv : Inv sz B start hasPd s L) :
    L.length + s.freeList.length + (defAddrs s.pinned).length =
      s.totalObjects - s.reapableObjects := by
  have := hinv.hpart.length_eq
  simp only [List.length_append, touched_length] at this
  omega

lemma Inv.of_le {sz B start : Nat} {hasPd : Bool} {s : SBState} {L : List Nat}
    (hinv : Inv sz B start hasPd s L) : s.objectsFree ≤ s.totalObjects := by
  have hc := hinv.count
  have := hinv.hreap
  rw [hinv.hof]; omega

/-- Every live address, free-list entry or deferred address is a reap-issued
slot base. -/
lemma Inv.mem_touched {sz B start : Nat} {hasPd : Bool} {s : SBState} {L : List Nat}
    (hinv : Inv sz B start hasPd s L) {x : Nat}
    (hx : x ∈ L ++ s.freeList ++ defAddrs s.pinned) :
    ∃ k, k < s.totalObjects - s.reapableObjects ∧ x = s.start + k * s.objectSize :=
  mem_touched_iff.1 (hinv.hpart.mem_iff.1 hx)

/-- The partition list is duplicate-free, so its three parts are
duplicate-free and pairwise disjoint. -/
lemma Inv.part_nodup {sz B start : Nat} {hasPd : Bool} {s : SBState} {L : List Nat}
    (hw : WF sz B start) (hinv : Inv sz B start hasPd s L) :
    (L ++ s.freeList ++ defAddrs s.pinned).Nodup :=
  (touched_nodup (hinv.sz_pos hw)).perm hinv.hpart.symm

lemma Inv.base_even {sz B start : Nat} {hasPd : Bool} {s : SBState} {L : List Nat}
    (hw : WF sz B start) (hinv : Inv sz B start hasPd s L) {k : Nat}
    (hk : k < s.totalObjects) : (s.start + k * s.objectSize) % 2 = 0 := by
  rw [hinv.hsz, hinv.hstart]
  exact hw.baseEven (by rw [← hinv.htot]; exact hk)

lemma Inv.base_pos {sz B start : Nat} {hasPd : Bool} {s : SBState} {L : List Nat}
    (hw : WF sz B start) (hinv : Inv sz B start hasPd s L) (k : Nat) :
    0 < s.start + k * s.objectSize := by
  have := hw.2.2.1
  rw [hinv.hstart]; omega

/-- The invariant holds for a freshly constructed superblock. -/
lemma inv_init (sz B start : Nat) (hasPd : Bool) :
    Inv sz B start hasPd (mkState sz B start hasPd) [] := by
  refine ⟨rfl, rfl, rfl, rfl, rfl, le_refl _, by simp [mkState], by simp [mkState],
    by simp [mkState], ?_, ?_, ?_, ?_, fun _ => ⟨rfl, rfl⟩⟩
  · intro e he hne
    rw [List.eq_of_mem_replicate he] at hne
    exact absurd rfl hne
  · have : tblAddrs (mkState sz B start hasPd).pinned = [] := by
      simp [mkState, tblAddrs, List.filter_replicate]
    rw [this]; exact List.nodup_nil
  · intro e he hflag
    rw [List.eq_of_mem_replicate he] at hflag
    simp [andInUse] at hflag
  · have h1 : defAddrs (mkState sz B start hasPd).pinned = [] := by
      simp [mkState, defAddrs, List.filter_replicate]
    have h2 : touched (mkState sz B start hasPd) = [] := by
      simp [mkState, touched]
    rw [h1, h2]
    simp [mkState]

end Zeus

namespace Zeus

/-! Unfolding lemmas for `malloc`. -/

lemma malloc_reap {s : SBState} (h : 0 < s.reapableObjects) :
    malloc s = (some s.position,
      { s with position := s.position + s.objectSize
               reapableObjects := s.reapableObjects - 1
               objectsFree := s.objectsFree - 1 }) := by
  unfold malloc reapAlloc
  rw [if_pos h]

lemma malloc_freelist {s : SBState} (h : s.reapableObjects = 0) {p : Nat} {rest : List Nat}
    (hfl : s.freeList = p :: rest) :
    malloc s = (some p, { s with freeList := rest, objectsFree := s.objectsFree - 1 }) := by
  unfold malloc reapAlloc freeListAlloc
  rw [if_neg (by omega)]
  simp only [hfl]

lemma malloc_exhausted {s : SBState} (h : s.reapableObjects = 0) (hfl : s.freeList = []) :
    malloc s = (none, s) := by
  unfold malloc reapAlloc freeListAlloc
  rw [if_neg (by omega)]
  simp only [hfl]

lemma malloc_none_cases {s s1 : SBState} (h : malloc s = (none, s1)) :
    s1 = s ∧ s.reapableObjects = 0 ∧ s.freeList = [] := by
  by_cases hr : 0 < s.reapableObjects
  · rw [malloc_reap hr] at h
    exact absurd (congrArg Prod.fst h) (by simp)
  · have hr0 : s.reapableObjects = 0 := by omega
    cases hfl : s.freeList with
    | nil =>
      rw [malloc_exhausted hr0 hfl] at h
      have h2 := congrArg Prod.snd h
      exact ⟨h2.symm, hr0, rfl⟩
    | cons p rest =>
      rw [malloc_freelist hr0 hfl] at h
      exact absurd (congrArg Prod.fst h) (by simp)

/-- Preservation of the invariant by a successful `malloc`; the returned
address becomes live. -/
lemma inv_alloc_some {sz B start : Nat} {hasPd : Bool} {s : SBState} {L : List Nat}
    {p : Nat} {s1 : SBState} (hinv : Inv sz B start hasPd s L)
    (h : malloc s = (some p, s1)) : Inv sz B start hasPd s1 (p :: L) := by
  have hcount := hinv.count
  have hofle := hinv.of_le
  by_cases hr : 0 < s.reapableObjects
  · rw [malloc_reap hr] at h
    have h1 : s.position = p := by
      have := congrArg Prod.fst h
      simpa using this
    have h2 := congrArg Prod.snd h
    subst h1
    simp only at h2
    subst h2
    refine ⟨hinv.hsz, hinv.hpw, hinv.htot, hinv.hmr, hinv.hstart, ?_, ?_, ?_,
      hinv.hlen, hinv.hform, hinv.hnodup, ?_, ?_, ?_⟩
    · show s.reapableObjects - 1 ≤ s.totalObjects
      have := hinv.hreap
      omega
    · show s.position + s.objectSize =
        s.start + (s.totalObjects - (s.reapableObjects - 1)) * s.objectSize
      rw [hinv.hpos]
      have h3 : s.totalObjects - (s.reapableObjects - 1) =
          (s.totalObjects - s.reapableObjects) + 1 := by
        have := hinv.hreap; omega
      rw [h3]
      ring
    · show s.objectsFree - 1 = s.reapableObjects - 1 + s.freeList.length
      have := hinv.hof
      omega
    · intro e he hf
      exact List.mem_cons_of_mem _ (hinv.hflag e he hf)
    · have h3 : s.totalObjects - (s.reapableObjects - 1) =
          (s.totalObjects - s.reapableObjects) + 1 := by
        have := hinv.hreap; omega
      show ((s.position :: L) ++ s.freeList ++ defAddrs s.pinned).Perm
        ((List.range (s.totalObjects - (s.reapableObjects - 1))).map fun k =>
          s.start + k * s.objectSize)
      rw [h3, List.range_succ, List.map_append]
      have hrhs : (List.range (s.totalObjects - s.reapableObjects)).map
          (fun k => s.start + k * s.objectSize) = touched s := rfl
      rw [hrhs]
      have hsingle : ([s.totalObjects - s.reapableObjects].map fun k =>
          s.start + k * s.objectSize) = [s.position] := by
        simp [hinv.hpos]
      rw [hsingle]
      exact (hinv.hpart.cons s.position).trans (List.perm_append_singleton _ _).symm
    · show s.objectsFree - 1 = s.totalObjects → _
      intro h4
      exfalso
      have := hinv.hof
      have := hinv.hreap
      omega
  · have hr0 : s.reapableObjects = 0 := by omega
    cases hfl : s.freeList with
    | nil =>
      rw [malloc_exhausted hr0 hfl] at h
      exact absurd (congrArg Prod.fst h) (by simp)
    | cons q rest =>
      rw [malloc_freelist hr0 hfl] at h
      have h1 : q = p := by
        have := congrArg Prod.fst h
        simpa using this
      have h2 := congrArg Prod.snd h
      subst h1
      simp only at h2
      subst h2
      refine ⟨hinv.hsz, hinv.hpw, hinv.htot, hinv.hmr, hinv.hstart, hinv.hreap,
        hinv.hpos, ?_, hinv.hlen, hinv.hform, hinv.hnodup, ?_, ?_, ?_⟩
      · show s.objectsFree - 1 = s.reapableObjects + rest.length
        have := hinv.hof
        rw [hfl] at this
        simp only [List.length_cons] at this
        omega
      · intro e he hf
        exact List.mem_cons_of_mem _ (hinv.hflag e he hf)
      · show ((q :: L) ++ rest ++ defAddrs s.pinned).Perm (touched s)
        have hp := hinv.hpart
        rw [hfl] at hp
        rw [List.append_assoc] at hp
        rw [List.append_assoc]
        exact List.perm_middle.symm.trans hp
      · show s.objectsFree - 1 = s.totalObjects → _
        intro h4
        exfalso
        have := hinv.hof
        rw [hfl] at this
        simp only [List.length_cons] at this
        omega

/-- A failed `malloc` leaves the state unchanged. -/
lemma inv_alloc_none {sz B start : Nat} {hasPd : Bool} {s : SBState} {L : List Nat}
    {s1 : SBState} (hinv : Inv sz B start hasPd s L) (h : malloc s = (none, s1)) :
    Inv sz B start hasPd s1 L := by
  obtain ⟨rfl, -, -⟩ := malloc_none_cases h
  exact hinv

end Zeus

namespace Zeus

/-- Preservation of the invariant by `free` of a live address. -/
lemma inv_free {sz B start : Nat} {hasPd : Bool} {s : SBState} {L : List Nat} {p : Nat}
    (hw : WF sz B start) (hinv : Inv sz B start hasPd s L) (hp : p ∈ L) :
    Inv sz B start hasPd (free s p) (L.erase p) := by
  have hcount := hinv.count
  obtain ⟨k0, hk0, hpk⟩ := hinv.mem_touched
    (List.mem_append_left _ (List.mem_append_left _ hp))
  have hpev : p % 2 = 0 := by
    rw [hpk]
    exact hinv.base_even hw (lt_of_lt_of_le hk0 (Nat.sub_le _ _))
  have hppos : 0 < p := by
    rw [hpk]
    exact hinv.base_pos hw k0
  have hnd := hinv.part_nodup hw
  rw [List.nodup_append] at hnd
  obtain ⟨hndLfl, hnddef, hdisj⟩ := hnd
  rw [List.nodup_append] at hndLfl
  obtain ⟨hndL, hndfl, hdisjLfl⟩ := hndLfl
  have hpnotdef : p ∉ defAddrs s.pinned := fun hmem =>
    hdisj (List.mem_append_left _ hp) hmem
  have hpnotfl : p ∉ s.freeList := fun hmem => hdisjLfl hp hmem
  have hLp : L.Perm (p :: L.erase p) := List.perm_cons_erase hp
  cases hscan : freeScan s.pinned p with
  | some tbl =>
    obtain ⟨l1, e0, l2, hsplit, hmiss, hhit, rfl⟩ := freeScan_some hscan
    have hfree : free s p = { s with pinned := l1 ++ p :: l2 } := by
      unfold free
      rw [hscan]
    have he0ne : e0 ≠ 0 := clearInUse_ne_zero hhit hppos
    have he0mem : e0 ∈ s.pinned := by
      rw [hsplit]
      exact List.mem_append_right _ (List.mem_cons_self _ _)
    obtain ⟨k1, hk1, hcase⟩ := hinv.hform e0 he0mem he0ne
    have hbev : (s.start + k1 * s.objectSize) % 2 = 0 := hinv.base_even hw hk1
    have he0form : e0 = orInUse p := by
      rcases hcase with hc | hc
      · rw [hc, clearInUse_orInUse hbev] at hhit
        rw [hc, hhit]
      · exfalso
        apply hpnotdef
        rw [mem_defAddrs]
        exact ⟨e0, he0mem, he0ne, by rw [hc]; exact hbev, hhit⟩
    have horOdd : orInUse p % 2 = 1 := by
      rw [orInUse_of_even hpev]
      omega
    have hpne0 : p ≠ 0 := by omega
    have htblold : tblAddrs s.pinned = tblAddrs l1 ++ p :: tblAddrs l2 := by
      rw [hsplit, tblAddrs_append, tblAddrs_cons_ne _ he0ne, hhit]
    have htblnew : tblAddrs (l1 ++ p :: l2) = tblAddrs l1 ++ p :: tblAddrs l2 := by
      rw [tblAddrs_append, tblAddrs_cons_ne _ hpne0, clearInUse_of_even hpev]
    have hdefold : defAddrs s.pinned = defAddrs l1 ++ defAddrs l2 := by
      rw [hsplit, defAddrs_append, he0form, defAddrs_cons_odd _ horOdd]
    have hdefnew : defAddrs (l1 ++ p :: l2) = defAddrs l1 ++ p :: defAddrs l2 := by
      rw [defAddrs_append, defAddrs_cons_even _ hpne0 hpev, clearInUse_of_even hpev]
    have hndtblold := hinv.hnodup
    rw [htblold, List.nodup_append] at hndtblold
    obtain ⟨hndt1, hndt2, hdisjt⟩ := hndtblold
    rw [hfree]
    refine ⟨hinv.hsz, hinv.hpw, hinv.htot, hinv.hmr, hinv.hstart, hinv.hreap,
      hinv.hpos, hinv.hof, ?_, ?_, ?_, ?_, ?_, ?_⟩
    · show (l1 ++ p :: l2).length = MAX_PINNED
      have := hinv.hlen
      rw [hsplit] at this
      simpa using this
    · intro e he hne
      rcases List.mem_append.1 he with h1 | h2
      · exact hinv.hform e (by rw [hsplit]; exact List.mem_append_left _ h1) hne
      · rcases List.mem_cons.1 h2 with h3 | h4
        · subst h3
          exact ⟨k0, lt_of_lt_of_le hk0 (Nat.sub_le _ _), Or.inr hpk⟩
        · exact hinv.hform e
            (by rw [hsplit]; exact List.mem_append_right _ (List.mem_cons_of_mem _ h4)) hne
    · show (tblAddrs (l1 ++ p :: l2)).Nodup
      rw [htblnew, ← htblold]
      exact hinv.hnodup
    · intro e he hf
      have hene : e ≠ 0 := by
        intro h0
        rw [h0] at hf
        simp [andInUse] at hf
      have henep : e ≠ p := by
        intro h0
        rw [h0, andInUse_of_even hpev] at hf
        omega
      have hemem : e ∈ s.pinned := by
        rw [hsplit]
        rcases List.mem_append.1 he with h1 | h2
        · exact List.mem_append_left _ h1
        · rcases List.mem_cons.1 h2 with h3 | h4
          · exact absurd h3 henep
          · exact List.mem_append_right _ (List.mem_cons_of_mem _ h4)
      have hinL : clearInUse e ∈ L := hinv.hflag e hemem hf
      have hnep : clearInUse e ≠ p := by
        rcases List.mem_append.1 he with h1 | h2
        · intro hceq
          have : clearInUse e ∈ tblAddrs l1 := mem_tblAddrs.2 ⟨e, h1, hene, rfl⟩
          exact hdisjt this (by rw [hceq]; exact List.mem_cons_self _ _)
        · rcases List.mem_cons.1 h2 with h3 | h4
          · exact absurd h3 henep
          · intro hceq
            have : clearInUse e ∈ tblAddrs l2 := mem_tblAddrs.2 ⟨e, h4, hene, rfl⟩
            rw [hceq] at this
            exact (List.nodup_cons.1 hndt2).1 this
      exact (List.mem_erase_of_ne hnep).2 hinL
    · show ((L.erase p ++ s.freeList) ++ defAddrs (l1 ++ p :: l2)).Perm (touched s)
      rw [hdefnew]
      have hpold := hinv.hpart
      rw [hdefold] at hpold
      have c1 : (defAddrs l1 ++ p :: defAddrs l2).Perm
          (p :: (defAddrs l1 ++ defAddrs l2)) := List.perm_middle
      have c2 := List.Perm.append_left (L.erase p ++ s.freeList) c1
      have c3 : ((L.erase p ++ s.freeList) ++ (p :: (defAddrs l1 ++ defAddrs l2))).Perm
          (p :: ((L.erase p ++ s.freeList) ++ (defAddrs l1 ++ defAddrs l2))) :=
        List.perm_middle
      have c4 : (((p :: L.erase p) ++ s.freeList) ++ (defAddrs l1 ++ defAddrs l2)).Perm
          ((L ++ s.freeList) ++ (defAddrs l1 ++ defAddrs l2)) :=
        (hLp.symm.append_right _).append_right _
      exact c2.trans (c3.trans (c4.trans hpold))
    · intro h4
      exact hinv.hfull h4
  | none =>
    have hnomatch := (freeScan_none_iff s.pinned p).1 hscan
    by_cases hT : s.objectsFree + 1 = s.totalObjects
    · have hfree : free s p =
          clear { s with freeList := p :: s.freeList, objectsFree := s.objectsFree + 1 } := by
        unfold free
        rw [hscan]
        exact if_pos hT
      have hL1 : L = [p] := by
        have hlpos : 0 < L.length := List.length_pos_of_mem hp
        have hlone : L.length = 1 := by
          have := hinv.hof
          omega
        obtain ⟨a, ha⟩ := List.length_eq_one.1 hlone
        rw [ha] at hp ⊢
        rcases List.mem_singleton.1 hp with rfl
        rfl
      have herase : L.erase p = [] := by rw [hL1]; simp
      have hdef0 : defAddrs s.pinned = [] := by
        have hlpos : 0 < L.length := List.length_pos_of_mem hp
        have := hinv.hof
        have hlen0 : (defAddrs s.pinned).length = 0 := by omega
        exact List.length_eq_zero.1 hlen0
      have halign : alignUp Alignment s.start = s.start := by
        rw [hinv.hstart]
        exact alignUp_of_aligned hw.2.1
      rw [hfree]
      refine ⟨hinv.hsz, hinv.hpw, hinv.htot, hinv.hmr, hinv.hstart, le_refl _,
        ?_, ?_, hinv.hlen, hinv.hform, hinv.hnodup, ?_, ?_, fun _ => ⟨rfl, rfl⟩⟩
      · show alignUp Alignment s.start =
          s.start + (s.totalObjects - s.totalObjects) * s.objectSize
        rw [halign, Nat.sub_self]
        simp
      · show s.totalObjects = s.totalObjects + ([] : List Nat).length
        simp
      · intro e he hf
        exfalso
        have hinL : clearInUse e ∈ L := hinv.hflag e he hf
        rw [hL1] at hinL
        exact hnomatch e he (List.mem_singleton.1 hinL)
      · show ((L.erase p ++ []) ++ defAddrs s.pinned).Perm
          ((List.range (s.totalObjects - s.totalObjects)).map fun k =>
            s.start + k * s.objectSize)
        rw [herase, hdef0, Nat.sub_self]
        simp
    · have hfree : free s p =
          { s with freeList := p :: s.freeList, objectsFree := s.objectsFree + 1 } := by
        unfold free
        rw [hscan]
        exact if_neg hT
      rw [hfree]
      refine ⟨hinv.hsz, hinv.hpw, hinv.htot, hinv.hmr, hinv.hstart, hinv.hreap,
        hinv.hpos, ?_, hinv.hlen, hinv.hform, hinv.hnodup, ?_, ?_, ?_⟩
      · show s.objectsFree + 1 = s.reapableObjects + (p :: s.freeList).length
        have := hinv.hof
        simp only [List.length_cons]
        omega
      · intro e he hf
        have hinL : clearInUse e ∈ L := hinv.hflag e he hf
        exact (List.mem_erase_of_ne (hnomatch e he)).2 hinL
      · show ((L.erase p ++ (p :: s.freeList)) ++ defAddrs s.pinned).Perm (touched s)
        have c1 : (L.erase p ++ (p :: s.freeList)).Perm (p :: (L.erase p ++ s.freeList)) :=
          List.perm_middle
        have c2 := c1.append_right (defAddrs s.pinned)
        have c3 : (((p :: L.erase p) ++ s.freeList) ++ defAddrs s.pinned).Perm
            ((L ++ s.freeList) ++ defAddrs s.pinned) :=
          (hLp.symm.append_right _).append_right _
        exact c2.trans (c3.trans hinv.hpart)
      · intro h4
        exact absurd h4 hT

end Zeus

namespace Zeus

/-- Preservation of the invariant by a successful `pin` of a live,
not-yet-pinned slot base. -/
lemma inv_pin {sz B start : Nat} {hasPd : Bool} {s : SBState} {L : List Nat} {p : Nat}
    {s1 : SBState} (hw : WF sz B start) (hinv : Inv sz B start hasPd s L)
    (hb : normalize s p ∈ L)
    (hfresh : ∀ e ∈ s.pinned, e ≠ 0 → clearInUse e ≠ normalize s p)
    (hs : pin s p = some s1) : Inv sz B start hasPd s1 L := by
  obtain ⟨k0, hk0, hbk⟩ := hinv.mem_touched
    (List.mem_append_left _ (List.mem_append_left _ hb))
  have hbev : normalize s p % 2 = 0 := by
    rw [hbk]
    exact hinv.base_even hw (lt_of_lt_of_le hk0 (Nat.sub_le _ _))
  unfold pin at hs
  rw [Option.map_eq_some'] at hs
  obtain ⟨tbl, htbl, rfl⟩ := hs
  obtain ⟨l1, l2, hsplit, hnz, rfl⟩ := pinScan_some htbl
  have horOdd : orInUse (normalize s p) % 2 = 1 := by
    rw [orInUse_of_even hbev]
    omega
  have horne : orInUse (normalize s p) ≠ 0 := by
    rw [orInUse_of_even hbev]
    omega
  have htblold : tblAddrs s.pinned = tblAddrs l1 ++ tblAddrs l2 := by
    rw [hsplit, tblAddrs_append, tblAddrs_cons_zero]
  have htblnew : tblAddrs (l1 ++ orInUse (normalize s p) :: l2) =
      tblAddrs l1 ++ normalize s p :: tblAddrs l2 := by
    rw [tblAddrs_append, tblAddrs_cons_ne _ horne, clearInUse_orInUse hbev]
  have hdefold : defAddrs s.pinned = defAddrs l1 ++ defAddrs l2 := by
    rw [hsplit, defAddrs_append, defAddrs_cons_zero]
  have hdefnew : defAddrs (l1 ++ orInUse (normalize s p) :: l2) =
      defAddrs l1 ++ defAddrs l2 := by
    rw [defAddrs_append, defAddrs_cons_odd _ horOdd]
  have hnotin : normalize s p ∉ tblAddrs l1 ++ tblAddrs l2 := by
    intro hmem
    rw [← htblold] at hmem
    obtain ⟨e, hemem, hene, heeq⟩ := mem_tblAddrs.1 hmem
    exact hfresh e hemem hene heeq
  refine ⟨hinv.hsz, hinv.hpw, hinv.htot, hinv.hmr, hinv.hstart, hinv.hreap,
    hinv.hpos, hinv.hof, ?_, ?_, ?_, ?_, ?_, ?_⟩
  · show (l1 ++ orInUse (normalize s p) :: l2).length = MAX_PINNED
    have := hinv.hlen
    rw [hsplit] at this
    simpa using this
  · intro e he hne
    rcases List.mem_append.1 he with h1 | h2
    · exact hinv.hform e (by rw [hsplit]; exact List.mem_append_left _ h1) hne
    · rcases List.mem_cons.1 h2 with h3 | h4
      · subst h3
        refine ⟨k0, lt_of_lt_of_le hk0 (Nat.sub_le _ _), Or.inl ?_⟩
        rw [← hbk]
      · exact hinv.hform e
          (by rw [hsplit]; exact List.mem_append_right _ (List.mem_cons_of_mem _ h4)) hne
  · show (tblAddrs (l1 ++ orInUse (normalize s p) :: l2)).Nodup
    rw [htblnew]
    rw [List.nodup_middle, List.nodup_cons]
    refine ⟨hnotin, ?_⟩
    rw [← htblold]
    exact hinv.hnodup
  · intro e he hf
    rcases List.mem_append.1 he with h1 | h2
    · exact hinv.hflag e (by rw [hsplit]; exact List.mem_append_left _ h1) hf
    · rcases List.mem_cons.1 h2 with h3 | h4
      · subst h3
        rw [clearInUse_orInUse hbev]
        exact hb
      · exact hinv.hflag e
          (by rw [hsplit]; exact List.mem_append_right _ (List.mem_cons_of_mem _ h4)) hf
  · show ((L ++ s.freeList) ++ defAddrs (l1 ++ orInUse (normalize s p) :: l2)).Perm
      (touched s)
    rw [hdefnew, ← hdefold]
    exact hinv.hpart
  · intro h4
    exact hinv.hfull h4

/-- Evaluation of `unpin` once the scan result is known. -/
lemma unpin_eq {s : SBState} {p : Nat} {wasClear : Bool} {tbl : List Nat}
    (hscan : unpinScan s.pinned (normalize s p) = some (wasClear, tbl)) :
    unpin s p = some (if wasClear then
        { (if s.objectsFree + 1 = s.totalObjects
           then clear { s with freeList := normalize s p :: s.freeList,
                               objectsFree := s.objectsFree + 1 }
           else { s with freeList := normalize s p :: s.freeList,
                         objectsFree := s.objectsFree + 1 }) with pinned := tbl }
      else { s with pinned := tbl }) := by
  unfold unpin
  simp only [hscan]
  cases wasClear with
  | false => rfl
  | true => rfl

end Zeus

namespace Zeus

/-- Preservation of the invariant by a successful `unpin` of an address with
a genuine (nonzero) matching pin-table entry. -/
lemma inv_unpin {sz B start : Nat} {hasPd : Bool} {s : SBState} {L : List Nat} {p : Nat}
    {s1 : SBState} (hw : WF sz B start) (hinv : Inv sz B start hasPd s L)
    (hreal : ∃ e ∈ s.pinned, e ≠ 0 ∧ clearInUse e = normalize s p)
    (hs : unpin s p = some s1) : Inv sz B start hasPd s1 L := by
  have hcount := hinv.count
  obtain ⟨er, hermem, herne, herhit⟩ := hreal
  obtain ⟨kr, hkr, hcr⟩ := hinv.hform er hermem herne
  have hbevr : (s.start + kr * s.objectSize) % 2 = 0 := hinv.base_even hw hkr
  have hobj : normalize s p = s.start + kr * s.objectSize := by
    rcases hcr with hc | hc
    · rw [hc, clearInUse_orInUse hbevr] at herhit
      exact herhit.symm
    · rw [hc, clearInUse_of_even hbevr] at herhit
      exact herhit.symm
  have hobjev : normalize s p % 2 = 0 := by rw [hobj]; exact hbevr
  have hobjpos : 0 < normalize s p := by rw [hobj]; exact hinv.base_pos hw kr
  cases hscan : unpinScan s.pinned (normalize s p) with
  | none =>
    exfalso
    exact (unpinScan_none_iff _ _).1 hscan er hermem herhit
  | some pr =>
    obtain ⟨wasClear, tbl⟩ := pr
    obtain ⟨l1, e0, l2, hsplit, hmiss, hhit, hwc, rfl⟩ := unpinScan_some hscan
    have he0ne : e0 ≠ 0 := clearInUse_ne_zero hhit hobjpos
    have he0mem : e0 ∈ s.pinned := by
      rw [hsplit]
      exact List.mem_append_right _ (List.mem_cons_self _ _)
    obtain ⟨k1, hk1, hcase⟩ := hinv.hform e0 he0mem he0ne
    have hbev1 : (s.start + k1 * s.objectSize) % 2 = 0 := hinv.base_even hw hk1
    rw [unpin_eq hscan] at hs
    have hlennew : (l1 ++ (0 : Nat) :: l2).length = MAX_PINNED := by
      have := hinv.hlen
      rw [hsplit] at this
      simpa using this
    have htblold : tblAddrs s.pinned = tblAddrs l1 ++ normalize s p :: tblAddrs l2 := by
      rw [hsplit, tblAddrs_append, tblAddrs_cons_ne _ he0ne, hhit]
    have htblnew : tblAddrs (l1 ++ 0 :: l2) = tblAddrs l1 ++ tblAddrs l2 := by
      rw [tblAddrs_append, tblAddrs_cons_zero]
    have hnd0 := hinv.hnodup
    rw [htblold, List.nodup_middle, List.nodup_cons] at hnd0
    have hndnew : (tblAddrs (l1 ++ 0 :: l2)).Nodup := by
      rw [htblnew]
      exact hnd0.2
    have hmemold : ∀ e, e ∈ l1 ++ 0 :: l2 → e ≠ 0 → e ∈ s.pinned := by
      intro e he hne
      rw [hsplit]
      rcases List.mem_append.1 he with h1 | h2
      · exact List.mem_append_left _ h1
      · rcases List.mem_cons.1 h2 with h3 | h4
        · exact absurd h3 hne
        · exact List.mem_append_right _ (List.mem_cons_of_mem _ h4)
    have hformnew : ∀ e ∈ l1 ++ 0 :: l2, e ≠ 0 →
        ∃ k, k < s.totalObjects ∧
          (e = orInUse (s.start + k * s.objectSize) ∨ e = s.start + k * s.objectSize) :=
      fun e he hne => hinv.hform e (hmemold e he hne) hne
    have hflagnew : ∀ e ∈ l1 ++ 0 :: l2, andInUse e = 1 → clearInUse e ∈ L := by
      intro e he hf
      have hne : e ≠ 0 := by
        intro h0
        rw [h0] at hf
        simp [andInUse] at hf
      exact hinv.hflag e (hmemold e he hne) hf
    rcases hcase with hc | hc
    · have he0fl : andInUse e0 = 1 := by
        rw [hc]
        exact andInUse_orInUse hbev1
      have hwcf : wasClear = false := by
        rw [hwc, he0fl]
        rfl
      subst hwcf
      have hs2 : some ({ s with pinned := l1 ++ 0 :: l2 } : SBState) = some s1 := hs
      rw [Option.some.injEq] at hs2
      subst hs2
      have he0odd : e0 % 2 = 1 := by
        unfold andInUse at he0fl
        omega
      have hdefold : defAddrs s.pinned = defAddrs l1 ++ defAddrs l2 := by
        rw [hsplit, defAddrs_append, defAddrs_cons_odd _ he0odd]
      have hdefnew : defAddrs (l1 ++ 0 :: l2) = defAddrs l1 ++ defAddrs l2 := by
        rw [defAddrs_append, defAddrs_cons_zero]
      refine ⟨hinv.hsz, hinv.hpw, hinv.htot, hinv.hmr, hinv.hstart, hinv.hreap,
        hinv.hpos, hinv.hof, hlennew, hformnew, hndnew, hflagnew, ?_, ?_⟩
      · show ((L ++ s.freeList) ++ defAddrs (l1 ++ 0 :: l2)).Perm (touched s)
        rw [hdefnew, ← hdefold]
        exact hinv.hpart
      · intro h4
        exact hinv.hfull h4
    · have he0ev : e0 % 2 = 0 := by
        rw [hc]
        exact hbev1
      have hwct : wasClear = true := by
        rw [hwc]
        unfold andInUse
        rw [he0ev]
        rfl
      subst hwct
      have hdefold : defAddrs s.pinned =
          defAddrs l1 ++ normalize s p :: defAddrs l2 := by
        rw [hsplit, defAddrs_append, defAddrs_cons_even _ he0ne he0ev, hhit]
      have hdefnew : defAddrs (l1 ++ 0 :: l2) = defAddrs l1 ++ defAddrs l2 := by
        rw [defAddrs_append, defAddrs_cons_zero]
      have hnd := hinv.part_nodup hw
      rw [List.nodup_append] at hnd
      obtain ⟨hndLfl, hnddef, hdisj⟩ := hnd
      have hobjdef : normalize s p ∈ defAddrs s.pinned := by
        rw [hdefold]
        exact List.mem_append_right _ (List.mem_cons_self _ _)
      have hdeflen : (defAddrs s.pinned).length =
          (defAddrs l1).length + (defAddrs l2).length + 1 := by
        rw [hdefold]
        simp only [List.length_append, List.length_cons]
        omega
      have hs2 : some ({ (if s.objectsFree + 1 = s.totalObjects
          then clear { s with freeList := normalize s p :: s.freeList,
                              objectsFree := s.objectsFree + 1 }
          else { s with freeList := normalize s p :: s.freeList,
                        objectsFree := s.objectsFree + 1 }) with
            pinned := l1 ++ 0 :: l2 } : SBState) = some s1 := hs
      by_cases hT : s.objectsFree + 1 = s.totalObjects
      · rw [if_pos hT, Option.some.injEq] at hs2
        subst hs2
        have hL0 : L = [] := by
          have := hinv.hof
          have hlen0 : L.length = 0 := by omega
          exact List.length_eq_zero.1 hlen0
        have hd1 : defAddrs l1 = [] := by
          have := hinv.hof
          have hlen0 : (defAddrs l1).length = 0 := by omega
          exact List.length_eq_zero.1 hlen0
        have hd2 : defAddrs l2 = [] := by
          have := hinv.hof
          have hlen0 : (defAddrs l2).length = 0 := by omega
          exact List.length_eq_zero.1 hlen0
        have halign : alignUp Alignment s.start = s.start := by
          rw [hinv.hstart]
          exact alignUp_of_aligned hw.2.1
        refine ⟨hinv.hsz, hinv.hpw, hinv.htot, hinv.hmr, hinv.hstart, le_refl _,
          ?_, ?_, hlennew, hformnew, hndnew, hflagnew, ?_, fun _ => ⟨rfl, rfl⟩⟩
        · show alignUp Alignment s.start =
            s.start + (s.totalObjects - s.totalObjects) * s.objectSize
          rw [halign, Nat.sub_self]
          simp
        · show s.totalObjects = s.totalObjects + ([] : List Nat).length
          simp
        · show ((L ++ []) ++ defAddrs (l1 ++ 0 :: l2)).Perm
            ((List.range (s.totalObjects - s.totalObjects)).map fun k =>
              s.start + k * s.objectSize)
          rw [hL0, hdefnew, hd1, hd2, Nat.sub_self]
          simp
      · rw [if_neg hT, Option.some.injEq] at hs2
        subst hs2
        refine ⟨hinv.hsz, hinv.hpw, hinv.htot, hinv.hmr, hinv.hstart, hinv.hreap,
          hinv.hpos, ?_, hlennew, hformnew, hndnew, hflagnew, ?_, ?_⟩
        · show s.objectsFree + 1 =
            s.reapableObjects + (normalize s p :: s.freeList).length
          have := hinv.hof
          simp only [List.length_cons]
          omega
        · show ((L ++ (normalize s p :: s.freeList)) ++ defAddrs (l1 ++ 0 :: l2)).Perm
            (touched s)
          rw [hdefnew]
          have hpold := hinv.hpart
          rw [hdefold] at hpold
          have c1 : (defAddrs l1 ++ normalize s p :: defAddrs l2).Perm
              (normalize s p :: (defAddrs l1 ++ defAddrs l2)) := List.perm_middle
          have c2 := List.Perm.append_left (L ++ s.freeList) c1
          have hp2 := c2.symm.trans hpold
          have c3 : ((L ++ (normalize s p :: s.freeList)) ++
              (defAddrs l1 ++ defAddrs l2)).Perm
              ((normalize s p :: (L ++ s.freeList)) ++ (defAddrs l1 ++ defAddrs l2)) :=
            List.Perm.append_right _ List.perm_middle
          have c4 : ((L ++ s.freeList) ++
              (normalize s p :: (defAddrs l1 ++ defAddrs l2))).Perm
              (normalize s p :: ((L ++ s.freeList) ++ (defAddrs l1 ++ defAddrs l2))) :=
            List.perm_middle
          exact c3.trans (c4.symm.trans hp2)
        · intro h4
          exact absurd h4 hT

end Zeus

namespace Zeus

/-- Every reachable state satisfies the invariant. -/
theorem reach_inv {sz B start : Nat} {hasPd : Bool} {s : SBState} {L : List Nat}
    (hw : WF sz B start) (h : Reach sz B start hasPd s L) : Inv sz B start hasPd s L := by
  induction h with
  | init => exact inv_init sz B start hasPd
  | alloc_some h hm ih => exact inv_alloc_some ih hm
  | alloc_none h hm ih => exact inv_alloc_none ih hm
  | release h hp ih => exact inv_free hw ih hp
  | pin_step h hb hfresh hpin ih => exact inv_pin hw ih hb hfresh hpin
  | unpin_step h hreal hup ih => exact inv_unpin hw ih hreal hup

/-- A fully free superblock is byte-for-byte the freshly constructed one,
and nothing is live. -/
lemma inv_full_eq_mkState {sz B start : Nat} {hasPd : Bool} {s : SBState} {L : List Nat}
    (hw : WF sz B start) (hinv : Inv sz B start hasPd s L)
    (hfull : s.objectsFree = s.totalObjects) :
    s = mkState sz B start hasPd ∧ L = [] := by
  obtain ⟨hreap, hfl⟩ := hinv.hfull hfull
  have htch : touched s = [] := by
    unfold touched
    rw [hreap, Nat.sub_self]
    simp
  have hpart := hinv.hpart
  rw [htch, hfl] at hpart
  have hnil : (L ++ [] ++ defAddrs s.pinned) = [] := hpart.eq_nil
  have hL0 : L = [] := by
    cases hL : L with
    | nil => rfl
    | cons a t => rw [hL] at hnil; simp at hnil
  have hdef0 : defAddrs s.pinned = [] := by
    rw [hL0] at hnil
    simpa using hnil
  have hzero : ∀ e ∈ s.pinned, e = 0 := by
    intro e he
    by_contra hne
    obtain ⟨k, hk, hcase⟩ := hinv.hform e he hne
    have hbev := hinv.base_even hw hk
    rcases hcase with hcc | hcc
    · have hf : andInUse e = 1 := by rw [hcc]; exact andInUse_orInUse hbev
      have := hinv.hflag e he hf
      rw [hL0] at this
      simp at this
    · have hev : e % 2 = 0 := by rw [hcc]; exact hbev
      have : clearInUse e ∈ defAddrs s.pinned := mem_defAddrs.2 ⟨e, he, hne, hev, rfl⟩
      rw [hdef0] at this
      simp at this
  have hpinned : s.pinned = List.replicate MAX_PINNED 0 :=
    List.eq_replicate_iff.2 ⟨hinv.hlen, hzero⟩
  have hposn : s.position = s.start := by
    rw [hinv.hpos, hreap, Nat.sub_self]
    simp
  refine ⟨?_, hL0⟩
  have heta : s = ⟨s.objectSize, s.objectSizeIsPowerOfTwo, s.totalObjects,
      s.reapableObjects, s.objectsFree, s.start, s.position, s.pinned, s.freeList,
      s.mr⟩ := rfl
  rw [heta]
  unfold mkState
  simp only [SBState.mk.injEq]
  exact ⟨hinv.hsz, hinv.hpw, hinv.htot, hreap.trans hinv.htot, hfull.trans hinv.htot,
    hinv.hstart, hposn.trans hinv.hstart, hpinned, hfl, hinv.hmr⟩

/-- An address is unavailable to the allocation path of a state: it is
neither on the free list nor under the reap cursor. -/
def unavailable (s : SBState) (A : Nat) : Prop :=
  A ∉ s.freeList ∧ ∀ k, k < s.reapableObjects → s.position + k * s.objectSize ≠ A

lemma unavailable_step {s : SBState} {A : Nat} (h : unavailable s A) :
    (malloc s).1 ≠ some A ∧ unavailable (malloc s).2 A := by
  obtain ⟨hfl, hreap⟩ := h
  by_cases hr : 0 < s.reapableObjects
  · rw [malloc_reap hr]
    refine ⟨?_, ?_, ?_⟩
    · intro heq
      simp only [Option.some.injEq] at heq
      exact hreap 0 hr (by simpa using heq)
    · exact hfl
    · intro k hk
      have hk2 : k < s.reapableObjects - 1 := hk
      have h2 : s.position + (k + 1) * s.objectSize ≠ A := hreap (k + 1) (by omega)
      show s.position + s.objectSize + k * s.objectSize ≠ A
      intro heq
      apply h2
      rw [← heq]
      ring
  · have hr0 : s.reapableObjects = 0 := by omega
    cases hflc : s.freeList with
    | nil =>
      rw [malloc_exhausted hr0 hflc]
      exact ⟨by simp, hfl, hreap⟩
    | cons q rest =>
      rw [malloc_freelist hr0 hflc]
      rw [hflc] at hfl
      refine ⟨?_, ?_, ?_⟩
      · intro heq
        simp only [Option.some.injEq] at heq
        exact hfl (heq ▸ List.mem_cons_self _ _)
      · exact fun hmem => hfl (List.mem_cons_of_mem _ hmem)
      · intro k hk
        have hk2 : k < s.reapableObjects := hk
        exact absurd hk2 (by omega)
    
lemma unavailable_trace {A : Nat} :
    ∀ n : Nat, ∀ s : SBState, unavailable s A → some A ∉ mallocTrace n s := by
  intro n
  induction n with
  | zero =>
    intro s h
    simp [mallocTrace]
  | succ n ih =>
    intro s h
    intro hmem
    simp only [mallocTrace] at hmem
    rcases List.mem_cons.1 hmem with h1 | h2
    · exact (unavailable_step h).1 h1.symm
    · exact ih _ (unavailable_step h).2 h2

/-- An address on the free list or under the reap cursor is returned by some
later `malloc` (when no other operation intervenes). -/
lemma avail_eventually :
    ∀ m : Nat, ∀ s : SBState, ∀ A : Nat,
    s.reapableObjects + s.freeList.length = m →
    (A ∈ s.freeList ∨ ∃ k, k < s.reapableObjects ∧ A = s.position + k * s.objectSize) →
    ∃ n, some A ∈ mallocTrace n s := by
  intro m
  induction m using Nat.strong_induction_on with
  | _ m ih =>
    intro s A hm hav
    by_cases hr : 0 < s.reapableObjects
    · rcases hav with hfl | ⟨k, hk, hA⟩
      · obtain ⟨n, hn⟩ := ih (m - 1) (by omega) (malloc s).2 A
          (by rw [malloc_reap hr]; show s.reapableObjects - 1 + s.freeList.length = m - 1; omega)
          (by rw [malloc_reap hr]; exact Or.inl hfl)
        refine ⟨n + 1, ?_⟩
        simp only [mallocTrace]
        exact List.mem_cons_of_mem _ hn
      · cases k with
        | zero =>
          refine ⟨1, ?_⟩
          simp only [mallocTrace]
          rw [malloc_reap hr]
          simp only [List.mem_cons]
          left
          rw [hA]
          simp
        | succ k1 =>
          obtain ⟨n, hn⟩ := ih (m - 1) (by omega) (malloc s).2 A
            (by rw [malloc_reap hr]; show s.reapableObjects - 1 + s.freeList.length = m - 1; omega)
            (by
              rw [malloc_reap hr]
              refine Or.inr ⟨k1, by show k1 < s.reapableObjects - 1; omega, ?_⟩
              show A = s.position + s.objectSize + k1 * s.objectSize
              rw [hA]
              ring)
          refine ⟨n + 1, ?_⟩
          simp only [mallocTrace]
          exact List.mem_cons_of_mem _ hn
    · have hr0 : s.reapableObjects = 0 := by omega
      rcases hav with hfl | ⟨k, hk, hA⟩
      · cases hflc : s.freeList with
        | nil =>
          rw [hflc] at hfl
          simp at hfl
        | cons q rest =>
          rw [hflc] at hfl
          rcases List.mem_cons.1 hfl with rfl | hrest
          · refine ⟨1, ?_⟩
            simp only [mallocTrace]
            rw [malloc_freelist hr0 hflc]
            simp
          · obtain ⟨n, hn⟩ := ih (m - 1)
              (by rw [hflc] at hm; simp only [List.length_cons] at hm; omega)
              (malloc s).2 A
              (by
                rw [malloc_freelist hr0 hflc]
                show s.reapableObjects + rest.length = m - 1
                rw [hflc] at hm
                simp only [List.length_cons] at hm
                omega)
              (by rw [malloc_freelist hr0 hflc]; exact Or.inl hrest)
            refine ⟨n + 1, ?_⟩
            simp only [mallocTrace]
            exact List.mem_cons_of_mem _ hn
      · omega

end Zeus

namespace Zeus

/-! Forward computation of the scans on a split table. -/

lemma freeScan_split {l1 l2 : List Nat} {e p : Nat}
    (hmiss : ∀ x ∈ l1, clearInUse x ≠ p) (hhit : clearInUse e = p) :
    freeScan (l1 ++ e :: l2) p = some (l1 ++ p :: l2) := by
  induction l1 with
  | nil => simp [freeScan, hhit]
  | cons x xs ih =>
    have hx : clearInUse x ≠ p := hmiss x (List.mem_cons_self _ _)
    rw [List.cons_append, freeScan, if_neg hx,
      ih fun y hy => hmiss y (List.mem_cons_of_mem _ hy)]
    rfl

lemma unpinScan_split {l1 l2 : List Nat} {e p : Nat}
    (hmiss : ∀ x ∈ l1, clearInUse x ≠ p) (hhit : clearInUse e = p) :
    unpinScan (l1 ++ e :: l2) p = some ((andInUse e == 0), l1 ++ 0 :: l2) := by
  induction l1 with
  | nil => simp [unpinScan, hhit]
  | cons x xs ih =>
    have hx : clearInUse x ≠ p := hmiss x (List.mem_cons_self _ _)
    rw [List.cons_append, unpinScan, if_neg hx,
      ih fun y hy => hmiss y (List.mem_cons_of_mem _ hy)]
    rfl

/-- Every address of the form `start + k * objectSize`, `k < totalObjects`,
is `Alignment`-aligned. -/
lemma Inv.base_aligned {sz B start : Nat} {hasPd : Bool} {s : SBState} {L : List Nat}
    (hw : WF sz B start) (hinv : Inv sz B start hasPd s L) {k : Nat}
    (hk : k < s.totalObjects) : (s.start + k * s.objectSize) % Alignment = 0 := by
  obtain ⟨h16, hal, hpos, hmult⟩ := hw
  have hst : s.start % Alignment = 0 := by rw [hinv.hstart]; exact hal
  rcases hmult with h1 | h2
  · have hT1 : s.totalObjects = 1 := by rw [hinv.htot]; exact h1
    have hk0 : k = 0 := by omega
    subst hk0
    simpa using hst
  · have hsz : s.objectSize % Alignment = 0 := by rw [hinv.hsz]; exact h2
    have hmul : k * s.objectSize % Alignment = 0 := by
      rw [Nat.mul_mod, hsz, Nat.mul_zero, Nat.zero_mod]
    rw [Nat.add_mod, hst, hmul]
    simp

/-- The constructor preconditions are decidable, so concrete instances can
be checked by evaluation. -/
instance WF.instDecidable (sz B start : Nat) : Decidable (WF sz B start) := by
  unfold WF
  infer_instance

/-- Claim C2: `allocate()` tries the reap cursor first, falls back to the
free list, signals exhaustion exactly when both are empty, and every
returned address is a 16-aligned slot base `start + k * objectSize`,
`k < totalObjects`. -/
theorem malloc_allocation_spec {sz B start : Nat} {hasPd : Bool} {s : SBState}
    {L : List Nat} (hw : WF sz B start) (hr : Reach sz B start hasPd s L) :
    (0 < s.reapableObjects →
      malloc s = (some s.position,
        { s with position := s.position + s.objectSize
                 reapableObjects := s.reapableObjects - 1
                 objectsFree := s.objectsFree - 1 })) ∧
    (s.reapableObjects = 0 → ∀ p rest, s.freeList = p :: rest →
      malloc s = (some p, { s with freeList := rest, objectsFree := s.objectsFree - 1 })) ∧
    ((malloc s).1 = none ↔ s.reapableObjects = 0 ∧ s.freeList = []) ∧
    (∀ p, (malloc s).1 = some p →
      p % Alignment = 0 ∧ ∃ k, k < s.totalObjects ∧ p = s.start + k * s.objectSize) := by
  have hinv := reach_inv hw hr
  refine ⟨fun h => malloc_reap h, fun h p rest hfl => malloc_freelist h hfl, ?_, ?_⟩
  · constructor
    · intro hnone
      by_cases hr2 : 0 < s.reapableObjects
      · rw [malloc_reap hr2] at hnone
        simp at hnone
      · have hr0 : s.reapableObjects = 0 := by omega
        cases hflc : s.freeList with
        | nil => exact ⟨hr0, rfl⟩
        | cons q rest =>
          rw [malloc_freelist hr0 hflc] at hnone
          simp at hnone
    · rintro ⟨h0, hfl⟩
      rw [malloc_exhausted h0 hfl]
  · intro p hp
    by_cases hr2 : 0 < s.reapableObjects
    · rw [malloc_reap hr2] at hp
      simp only [Option.some.injEq] at hp
      subst hp
      have hk : s.totalObjects - s.reapableObjects < s.totalObjects := by
        have := hinv.hreap
        omega
      constructor
      · rw [hinv.hpos]
        exact hinv.base_aligned hw hk
      · exact ⟨s.totalObjects - s.reapableObjects, hk, hinv.hpos⟩
    · have hr0 : s.reapableObjects = 0 := by omega
      cases hflc : s.freeList with
      | nil =>
        rw [malloc_exhausted hr0 hflc] at hp
        simp at hp
      | cons q rest =>
        rw [malloc_freelist hr0 hflc] at hp
        simp only [Option.some.injEq] at hp
        subst hp
        have hq : q ∈ s.freeList := by
          rw [hflc]
          exact List.mem_cons_self _ _
        obtain ⟨k, hk, hpk⟩ := hinv.mem_touched
          (List.mem_append_left _ (List.mem_append_right _ hq))
        have hkT : k < s.totalObjects := lt_of_lt_of_le hk (Nat.sub_le _ _)
        refine ⟨?_, k, hkT, hpk⟩
        rw [hpk]
        exact hinv.base_aligned hw hkT

/-- Witness for C2 at a concrete fresh superblock. -/
theorem malloc_allocation_spec_witness :
    (malloc (mkState 16 32 16 false)).1 = none ↔
      (mkState 16 32 16 false).reapableObjects = 0 ∧
      (mkState 16 32 16 false).freeList = [] :=
  (malloc_allocation_spec (by decide) Reach.init).2.2.1

end Zeus

namespace Zeus

/-- Claim C3: in every reachable state, `objectsFree = totalObjects` means
the superblock is byte-for-byte the freshly constructed one (free list
empty, both counters reset, cursor back at the aligned slot-region start,
pin table empty), nothing is live, and — when it holds any slot at all —
the next `allocate()` returns `start`, the same address as the very first
allocation of a fresh superblock. -/
theorem full_drain_reset {sz B start : Nat} {hasPd : Bool} {s : SBState} {L : List Nat}
    (hw : WF sz B start) (hr : Reach sz B start hasPd s L)
    (hfull : s.objectsFree = s.totalObjects) :
    s = mkState sz B start hasPd ∧ L = [] ∧
    s.freeList = [] ∧ s.reapableObjects = s.totalObjects ∧ s.position = s.start ∧
    (0 < s.totalObjects →
      (malloc s).1 = some start ∧
      (malloc (mkState sz B start hasPd)).1 = some start) := by
  obtain ⟨heq, hL⟩ := inv_full_eq_mkState hw (reach_inv hw hr) hfull
  refine ⟨heq, hL, by rw [heq]; rfl, by rw [heq]; rfl, by rw [heq]; rfl, ?_⟩
  intro hT
  have hT2 : 0 < B / sz := by
    rw [heq] at hT
    exact hT
  have hmal : (malloc (mkState sz B start hasPd)).1 = some start := by
    rw [malloc_reap (show 0 < (mkState sz B start hasPd).reapableObjects from hT2)]
    rfl
  exact ⟨by rw [heq]; exact hmal, hmal⟩

/-- Witness for C3: a fresh two-slot superblock is fully free and its first
allocation returns the slot-region start. -/
theorem full_drain_reset_witness :
    (malloc (mkState 16 32 16 false)).1 = some 16 ∧
    (malloc (mkState 16 32 16 false)).1 = some 16 :=
  (full_drain_reset (by decide) Reach.init rfl).2.2.2.2.2 (by decide)

/-- Claim C4: along any protocol-respecting sequence of operations,
`objectsFree` never exceeds `totalObjects` (and, being a `Nat`, is never
negative), the live addresses are pairwise distinct slot bases, and the
byte ranges `[p, p + objectSize)` of two distinct live allocations never
overlap. -/
theorem alloc_release_safety {sz B start : Nat} {hasPd : Bool} {s : SBState}
    {L : List Nat} (hw : WF sz B start) (hr : Reach sz B start hasPd s L) :
    s.objectsFree ≤ s.totalObjects ∧
    L.Nodup ∧
    (∀ p ∈ L, ∃ k, k < s.totalObjects ∧ p = s.start + k * s.objectSize) ∧
    (∀ p ∈ L, ∀ q ∈ L, p ≠ q →
      p + s.objectSize ≤ q ∨ q + s.objectSize ≤ p) := by
  have hinv := reach_inv hw hr
  have hnd := hinv.part_nodup hw
  rw [List.nodup_append] at hnd
  obtain ⟨hndLfl, -, -⟩ := hnd
  rw [List.nodup_append] at hndLfl
  have hbase : ∀ p ∈ L, ∃ k, k < s.totalObjects ∧ p = s.start + k * s.objectSize := by
    intro p hp
    obtain ⟨k, hk, hpk⟩ := hinv.mem_touched
      (List.mem_append_left _ (List.mem_append_left _ hp))
    exact ⟨k, lt_of_lt_of_le hk (Nat.sub_le _ _), hpk⟩
  refine ⟨hinv.of_le, hndLfl.1, hbase, ?_⟩
  intro p hp q hq hne
  obtain ⟨i, hi, rfl⟩ := hbase p hp
  obtain ⟨j, hj, rfl⟩ := hbase q hq
  have hij : i ≠ j := fun h => hne (by rw [h])
  have hsz : 0 < s.objectSize := hinv.sz_pos hw
  rcases Nat.lt_or_ge i j with h | h
  · left
    have : (i + 1) * s.objectSize ≤ j * s.objectSize :=
      Nat.mul_le_mul_right _ (by omega)
    have h2 : i * s.objectSize + s.objectSize ≤ j * s.objectSize := by
      rw [← Nat.succ_mul]
      exact this
    omega
  · right
    have hji : j < i := by omega
    have : (j + 1) * s.objectSize ≤ i * s.objectSize :=
      Nat.mul_le_mul_right _ (by omega)
    have h2 : j * s.objectSize + s.objectSize ≤ i * s.objectSize := by
      rw [← Nat.succ_mul]
      exact this
    omega

/-- Witness for C4 after one concrete allocation. -/
theorem alloc_release_safety_witness :
    (malloc (mkState 16 32 16 false)).2.objectsFree ≤
      (malloc (mkState 16 32 16 false)).2.totalObjects :=
  (@alloc_release_safety 16 32 16 false (malloc (mkState 16 32 16 false)).2 [16]
    (by decide) (Reach.alloc_some Reach.init (by decide))).1

/-- Claim C6: in every state reachable under the calling protocol, the pin
table has exactly `MAX_PINNED` (100) entries, so it never holds more than
100 simultaneously occupied (nonzero) entries, and the occupied entries
record pairwise distinct normalized slot addresses. -/
theorem pin_table_distinct {sz B start : Nat} {hasPd : Bool} {s : SBState}
    {L : List Nat} (hw : WF sz B start) (hr : Reach sz B start hasPd s L) :
    s.pinned.length = MAX_PINNED ∧
    (s.pinned.filter fun e => e != 0).length ≤ MAX_PINNED ∧
    (tblAddrs s.pinned).Nodup := by
  have hinv := reach_inv hw hr
  refine ⟨hinv.hlen, ?_, hinv.hnodup⟩
  rw [← hinv.hlen]
  exact List.length_filter_le _ _

/-- Witness for C6 at the fresh state. -/
theorem pin_table_distinct_witness :
    (mkState 16 32 16 false).pinned.length = MAX_PINNED :=
  (pin_table_distinct (by decide) Reach.init).1

end Zeus

namespace Zeus

/-- The spec's capacity scenario: pin `MAX_PINNED + 1` distinct slot bases
on one superblock of 101 slots. -/
def pinOverflowScenario : Option SBState :=
  pinAll ((List.range (MAX_PINNED + 1)).map fun k => Alignment + Alignment * k)
    (mkState 16 1616 16 false)

/-- Claim C7: `pin(ptr)` stores `normalize(ptr) | IN_USE` in the first empty
pin-table entry when one exists; with every entry occupied it hits the
fatal `assert(0)` (modelled by `none`) instead of returning a recoverable
error; in particular pinning `MAX_PINNED + 1` distinct addresses is fatal
(the first 100 pins succeed, the 101st aborts). -/
theorem pin_capacity (s : SBState) (p : Nat) :
    ((0 : Nat) ∈ s.pinned →
      ∃ l1 l2, s.pinned = l1 ++ 0 :: l2 ∧ (∀ x ∈ l1, x ≠ 0) ∧
        pin s p = some { s with pinned := l1 ++ orInUse (normalize s p) :: l2 }) ∧
    ((0 : Nat) ∉ s.pinned → pin s p = none) ∧
    pinOverflowScenario = none := by
  refine ⟨?_, ?_, ?_⟩
  · intro h0
    cases hscan : pinScan s.pinned (normalize s p) with
    | none => exact absurd rfl ((pinScan_none_iff _ _).1 hscan 0 h0)
    | some r =>
      obtain ⟨l1, l2, hsplit, hnz, rfl⟩ := pinScan_some hscan
      refine ⟨l1, l2, hsplit, hnz, ?_⟩
      unfold pin
      rw [hscan]
      rfl
  · intro h0
    have hscan : pinScan s.pinned (normalize s p) = none :=
      (pinScan_none_iff _ _).2 fun e he heq => h0 (heq ▸ he)
    unfold pin
    rw [hscan]
    rfl
  · set_option maxRecDepth 4000 in decide

/-- Claim C8: the destructor calls the hardware deregistration
unconditionally; constructed without a process-wide hardware context
(`hasPd = false`) the handle is still null, yet the deregistration call is
made — with the null handle as its argument. -/
theorem dtor_dereg_unconditional (sz B start : Nat) (hasPd : Bool) :
    (destruct (mkState sz B start hasPd)).2.deregCalled = true ∧
    (mkState sz B start false).mr = false ∧
    (destruct (mkState sz B start false)).2.deregHandleWasNull = true ∧
    (∀ s : SBState, (destruct s).2.deregCalled = true) :=
  ⟨rfl, rfl, rfl, fun _ => rfl⟩

/-- Claim C10: constructing with `bufferSize < objectSize` yields a
superblock with zero slots; every later `allocate()` returns the exhausted
signal and leaves the state unchanged (`malloc` is total here: no fatal
path exists on this code path). -/
theorem zero_capacity_exhausted {sz B start : Nat} {hasPd : Bool}
    (hlt : B < sz) :
    (mkState sz B start hasPd).totalObjects = 0 ∧
    (mkState sz B start hasPd).objectsFree = 0 ∧
    (mkState sz B start hasPd).reapableObjects = 0 ∧
    malloc (mkState sz B start hasPd) = (none, mkState sz B start hasPd) ∧
    (∀ n, mallocTrace n (mkState sz B start hasPd) = List.replicate n none) := by
  have hT : B / sz = 0 := Nat.div_eq_of_lt hlt
  have h1 : (mkState sz B start hasPd).totalObjects = 0 := hT
  have h2 : (mkState sz B start hasPd).reapableObjects = 0 := hT
  have h3 : (mkState sz B start hasPd).objectsFree = 0 := hT
  have hm : malloc (mkState sz B start hasPd) = (none, mkState sz B start hasPd) :=
    malloc_exhausted h2 rfl
  refine ⟨h1, h3, h2, hm, ?_⟩
  intro n
  induction n with
  | zero => rfl
  | succ n ih =>
    show (malloc (mkState sz B start hasPd)).1 ::
      mallocTrace n (malloc (mkState sz B start hasPd)).2 = List.replicate (n + 1) none
    rw [hm]
    rw [List.replicate_succ]
    exact congrArg _ ih

/-- Witness for C10 at `objectSize = 16`, `bufferSize = 8`. -/
theorem zero_capacity_exhausted_witness :
    (mkState 16 8 16 false).totalObjects = 0 ∧
    (mkState 16 8 16 false).objectsFree = 0 ∧
    (mkState 16 8 16 false).reapableObjects = 0 ∧
    malloc (mkState 16 8 16 false) = (none, mkState 16 8 16 false) ∧
    (∀ n, mallocTrace n (mkState 16 8 16 false) = List.replicate n none) :=
  zero_capacity_exhausted (by decide)

set_option maxRecDepth 8000 in
/-- Counterexample to claim C5 as stated.  On a fresh superblock with
`objectSize = 32` (slots at 16 and 48), allocate both slots and pin the
slot base 16.  The address 32 is an interior pointer of the pinned slot
(`normalize` maps it to 16, and it passes the release path's 16-alignment
assertion), yet `free(32)` does not match the pin-table entry: it
immediately inserts 32 into the free list and increments `objectsFree`
from 1 to 2, while `free(16)` on the same state is correctly deferred
(`objectsFree` stays 1, free list stays empty).  So release does not
compare the pin table against `normalize(ptr)`; interior pointers are not
matched. -/
theorem release_interior_not_deferred_cex :
    (pin (malloc (malloc (mkState 32 96 16 false)).2).2 16).map
      (fun s2 => (normalize s2 32, s2.objectsFree,
        (free s2 32).objectsFree, (free s2 32).freeList,
        (free s2 16).objectsFree, (free s2 16).freeList)) =
    some (16, 1, 2, [32], 1, []) := by
  decide

/-- Claim C5, amended: `free(ptr)` compares pin-table entries against the
raw `ptr`, not `normalize(ptr)`: reclamation is deferred exactly when some
entry's address field equals `ptr` itself; otherwise — interior pointers of
pinned slots included — the pointer is immediately inserted into the free
list with `objectsFree` incremented (and `clear()` runs when the superblock
thereby becomes fully free). -/
theorem release_matches_raw_pointer (s : SBState) (ptr : Nat) :
    (freeScan s.pinned ptr = none ↔ ∀ e ∈ s.pinned, clearInUse e ≠ ptr) ∧
    ((∃ e ∈ s.pinned, clearInUse e = ptr) →
      (free s ptr).objectsFree = s.objectsFree ∧
      (free s ptr).freeList = s.freeList ∧
      (free s ptr).reapableObjects = s.reapableObjects ∧
      (free s ptr).position = s.position) ∧
    ((∀ e ∈ s.pinned, clearInUse e ≠ ptr) →
      free s ptr = (if s.objectsFree + 1 = s.totalObjects
        then clear { s with freeList := ptr :: s.freeList,
                            objectsFree := s.objectsFree + 1 }
        else { s with freeList := ptr :: s.freeList,
                      objectsFree := s.objectsFree + 1 })) := by
  refine ⟨freeScan_none_iff s.pinned ptr, ?_, ?_⟩
  · rintro ⟨e, he, heq⟩
    cases hscan : freeScan s.pinned ptr with
    | none => exact absurd heq ((freeScan_none_iff _ _).1 hscan e he)
    | some tbl =>
      have hfree : free s ptr = { s with pinned := tbl } := by
        unfold free
        rw [hscan]
      rw [hfree]
      exact ⟨rfl, rfl, rfl, rfl⟩
  · intro hnone
    have hscan : freeScan s.pinned ptr = none := (freeScan_none_iff _ _).2 hnone
    unfold free
    rw [hscan]

end Zeus

namespace Zeus

set_option maxRecDepth 8000 in
/-- Counterexample to claim C1 as stated.  On a single-slot superblock
(`objectSize = bufferSize = 16`, slot base 16): allocate 16, `pin(16)`,
`release(16)` (deferred: `objectsFree` stays 0), then `unpin(16)`.  The
unpin raises `objectsFree` to `totalObjects = 1`, so `free` path inside
unpin immediately runs `clear()`, which empties the free list: the final
free list is `[]` and the address 16 is *not* left inserted in the Free
List (the slot is reapable instead), refuting the claim's "inserts A into
the Free List" for this reachable input — while `objectsFree` did rise by
exactly 1 (0 to 1). -/
theorem unpin_freelist_insertion_cex :
    ((pin (malloc (mkState 16 16 16 false)).2 16).bind fun s2 =>
      unpin (free s2 16) 16).map SBState.freeList = some [] ∧
    ((pin (malloc (mkState 16 16 16 false)).2 16).bind fun s2 =>
      unpin (free s2 16) 16).map SBState.objectsFree = some 1 ∧
    (malloc (mkState 16 16 16 false)).1 = some 16 ∧
    (pin (malloc (mkState 16 16 16 false)).2 16).map
      (fun s2 => (free s2 16).objectsFree) = some 0 := by
  decide

/-- Evaluation of `unpin` when the matched entry still has its in-use flag
set: only the entry is zeroed. -/
lemma unpin_wasSet {s : SBState} {p : Nat} {tbl : List Nat}
    (hscan : unpinScan s.pinned (normalize s p) = some (false, tbl)) :
    unpin s p = some { s with pinned := tbl } := by
  unfold unpin
  simp only [hscan]
  rfl

/-- Evaluation of `unpin` on a deferred-free entry when the superblock does
not become fully free: the normalized address joins the free list. -/
lemma unpin_wasClear_partial {s : SBState} {p : Nat} {tbl : List Nat}
    (hscan : unpinScan s.pinned (normalize s p) = some (true, tbl))
    (hT : ¬(s.objectsFree + 1 = s.totalObjects)) :
    unpin s p = some { s with
        freeList := normalize s p :: s.freeList
        objectsFree := s.objectsFree + 1
        pinned := tbl } := by
  rw [unpin_eq hscan, if_pos rfl, if_neg hT]

/-- Evaluation of `unpin` on a deferred-free entry when the superblock
thereby becomes fully free: `clear()` runs. -/
lemma unpin_wasClear_full {s : SBState} {p : Nat} {tbl : List Nat}
    (hscan : unpinScan s.pinned (normalize s p) = some (true, tbl))
    (hT : s.objectsFree + 1 = s.totalObjects) :
    unpin s p = some { s with
        freeList := []
        objectsFree := s.totalObjects
        reapableObjects := s.totalObjects
        position := alignUp Alignment s.start
        pinned := tbl } := by
  rw [unpin_eq hscan, if_pos rfl, if_pos hT]
  rfl

end Zeus

namespace Zeus

/-- Claim C1, amended: for a live slot base `A` that is not currently
pinned, after `pin(A)` succeeds, `release(A)` leaves `objectsFree` and the
free list unchanged (the slot is only flag-cleared in the pin table, not
inserted into the free list) and `A` stays unavailable to every subsequent
`allocate()`; the following `unpin(A)` succeeds, raises `objectsFree` by
exactly 1, removes `A` from the pin table, and makes `A`'s slot returnable
by a later `allocate()` — by inserting `A` into the free list when the
superblock is not thereby fully free, and otherwise (the amendment) by
running `clear()`, which empties the free list and makes the slot reapable
from a pristine superblock. -/
theorem pin_release_unpin_deferred {sz B start : Nat} {hasPd : Bool} {s : SBState}
    {L : List Nat} {A : Nat} {s1 : SBState}
    (hw : WF sz B start) (hr : Reach sz B start hasPd s L)
    (hA : A ∈ L)
    (hnp : ∀ e ∈ s.pinned, e ≠ 0 → clearInUse e ≠ A)
    (hpin : pin s A = some s1) :
    (free s1 A).objectsFree = s.objectsFree ∧
    (free s1 A).freeList = s.freeList ∧
    A ∉ (free s1 A).freeList ∧
    (∀ n, some A ∉ mallocTrace n (free s1 A)) ∧
    ∃ s3, unpin (free s1 A) A = some s3 ∧
      s3.objectsFree = s.objectsFree + 1 ∧
      (∀ e ∈ s3.pinned, clearInUse e ≠ A) ∧
      (s.objectsFree + 1 ≠ s.totalObjects → s3.freeList = A :: s.freeList) ∧
      (s.objectsFree + 1 = s.totalObjects → s3 = mkState sz B start hasPd) ∧
      (∃ n, some A ∈ mallocTrace n s3) := by
  have hpin0 := hpin
  have hinv := reach_inv hw hr
  have hszpos : 0 < s.objectSize := hinv.sz_pos hw
  obtain ⟨k0, hk0, hAk⟩ := hinv.mem_touched
    (List.mem_append_left _ (List.mem_append_left _ hA))
  have hAev : A % 2 = 0 := by
    rw [hAk]
    exact hinv.base_even hw (lt_of_lt_of_le hk0 (Nat.sub_le _ _))
  have hApos : 0 < A := by
    rw [hAk]
    exact hinv.base_pos hw k0
  have hpw : s.objectSizeIsPowerOfTwo = isPowerOfTwoFlag s.objectSize := by
    rw [hinv.hsz]
    exact hinv.hpw
  have hnormA : normalize s A = A := by
    rw [hAk]
    have := normalize_slot s hpw k0 0 hszpos
    simpa using this
  have hnd := hinv.part_nodup hw
  rw [List.nodup_append] at hnd
  obtain ⟨hndLfl, -, -⟩ := hnd
  rw [List.nodup_append] at hndLfl
  have hAfl : A ∉ s.freeList := fun hmem => hndLfl.2.2 hA hmem
  have halign : alignUp Alignment s.start = s.start := by
    rw [hinv.hstart]
    exact alignUp_of_aligned hw.2.1
  unfold pin at hpin
  rw [hnormA, Option.map_eq_some'] at hpin
  obtain ⟨tbl, hscan, heq1⟩ := hpin
  obtain ⟨l1, l2, hsplit, hnz, rfl⟩ := pinScan_some hscan
  subst heq1
  have hmiss1 : ∀ x ∈ l1, clearInUse x ≠ A := fun x hx =>
    hnp x (by rw [hsplit]; exact List.mem_append_left _ hx) (hnz x hx)
  have hhitA : clearInUse (orInUse A) = A := clearInUse_orInUse hAev
  have hscan2 : freeScan
      ({ s with pinned := l1 ++ orInUse A :: l2 } : SBState).pinned A =
      some (l1 ++ A :: l2) := freeScan_split hmiss1 hhitA
  have hfree : free { s with pinned := l1 ++ orInUse A :: l2 } A =
      { s with pinned := l1 ++ A :: l2 } := by
    unfold free
    rw [hscan2]
  rw [hfree]
  have hnomatch0 : ∀ e ∈ l1 ++ (0 : Nat) :: l2, clearInUse e ≠ A := by
    intro e he
    rcases List.mem_append.1 he with h1 | h2
    · exact hmiss1 e h1
    · rcases List.mem_cons.1 h2 with h3 | h4
      · subst h3
        show clearInUse 0 ≠ A
        rw [clearInUse_zero]
        omega
      · by_cases h0 : e = 0
        · subst h0
          rw [clearInUse_zero]
          omega
        · have hmem : e ∈ s.pinned := by
            rw [hsplit]
            exact List.mem_append_right _ (List.mem_cons_of_mem _ h4)
          exact hnp e hmem h0
  refine ⟨rfl, rfl, hAfl, ?_, ?_⟩
  · intro n
    apply unavailable_trace
    refine ⟨hAfl, ?_⟩
    intro k hk
    have hk2 : k < s.reapableObjects := hk
    show s.position + k * s.objectSize ≠ A
    rw [hinv.hpos, hAk]
    intro heq
    have heq2 : (s.totalObjects - s.reapableObjects + k) * s.objectSize =
        k0 * s.objectSize := by
      rw [Nat.add_mul]
      omega
    have := Nat.eq_of_mul_eq_mul_right hszpos heq2
    omega
  · have hnorm2 : normalize ({ s with pinned := l1 ++ A :: l2 } : SBState) A = A :=
      hnormA
    have hb : (andInUse A == 0) = true := by
      rw [andInUse_of_even hAev]
      rfl
    have hscan3 : unpinScan ({ s with pinned := l1 ++ A :: l2 } : SBState).pinned
        (normalize ({ s with pinned := l1 ++ A :: l2 } : SBState) A) =
        some (true, l1 ++ 0 :: l2) := by
      rw [hnorm2]
      have hsp := @unpinScan_split l1 l2 A A hmiss1 (clearInUse_of_even hAev)
      rw [hb] at hsp
      exact hsp
    by_cases hT : s.objectsFree + 1 = s.totalObjects
    · have hu : unpin ({ s with pinned := l1 ++ A :: l2 } : SBState) A =
          some { s with
            freeList := []
            objectsFree := s.totalObjects
            reapableObjects := s.totalObjects
            position := alignUp Alignment s.start
            pinned := l1 ++ 0 :: l2 } := unpin_wasClear_full hscan3 hT
      refine ⟨_, hu, ?_, hnomatch0, fun h => absurd hT h, ?_, ?_⟩
      · show s.totalObjects = s.objectsFree + 1
        omega
      · intro _
        have hr1 : Reach sz B start hasPd { s with pinned := l1 ++ orInUse A :: l2 } L :=
          Reach.pin_step hr (by rw [hnormA]; exact hA)
            (by rw [hnormA]; exact hnp) hpin0
        have hr2 : Reach sz B start hasPd { s with pinned := l1 ++ A :: l2 }
            (L.erase A) := by
          have := Reach.release hr1 hA
          rw [hfree] at this
          exact this
        have hr3 : Reach sz B start hasPd
            ({ s with
              freeList := []
              objectsFree := s.totalObjects
              reapableObjects := s.totalObjects
              position := alignUp Alignment s.start
              pinned := l1 ++ 0 :: l2 } : SBState) (L.erase A) := by
          refine Reach.unpin_step hr2 ?_ hu
          refine ⟨A, ?_, by omega, ?_⟩
          · show A ∈ l1 ++ A :: l2
            exact List.mem_append_right _ (List.mem_cons_self _ _)
          · rw [hnorm2]
            exact clearInUse_of_even hAev
        obtain ⟨heqmk, -⟩ := inv_full_eq_mkState hw (reach_inv hw hr3) rfl
        exact heqmk
      · refine avail_eventually _ _ A rfl (Or.inr ⟨k0, ?_, ?_⟩)
        · show k0 < s.totalObjects
          exact lt_of_lt_of_le hk0 (Nat.sub_le _ _)
        · show A = alignUp Alignment s.start + k0 * s.objectSize
          rw [halign]
          exact hAk
    · have hu : unpin ({ s with pinned := l1 ++ A :: l2 } : SBState) A =
          some { s with
            freeList := A :: s.freeList
            objectsFree := s.objectsFree + 1
            pinned := l1 ++ 0 :: l2 } := by
        have := unpin_wasClear_partial hscan3 hT
        rw [hnorm2] at this
        exact this
      refine ⟨_, hu, rfl, hnomatch0, fun _ => rfl, fun h => absurd h hT, ?_⟩
      refine avail_eventually _ _ A rfl (Or.inl ?_)
      show A ∈ A :: s.freeList
      exact List.mem_cons_self _ _

set_option maxRecDepth 8000 in
/-- Witness for the amended C1 on a three-slot superblock. -/
theorem pin_release_unpin_deferred_witness :
    (free ((pin (malloc (mkState 16 48 16 false)).2 16).getD
      (mkState 16 48 16 false)) 16).objectsFree =
      (malloc (mkState 16 48 16 false)).2.objectsFree :=
  (@pin_release_unpin_deferred 16 48 16 false (malloc (mkState 16 48 16 false)).2 [16] 16
    ((pin (malloc (mkState 16 48 16 false)).2 16).getD (mkState 16 48 16 false))
    (by decide) (Reach.alloc_some Reach.init (by decide)) (by decide) (by decide)
    (by decide)).1

end Zeus

namespace Zeus

/-- Claim C9: for every address returned by `allocate()`, `normalize` is the
identity, every interior pointer of the slot normalizes to the returned
base, and on the power-of-two path the mask computes exactly the modulo of
the other path, so both paths agree wherever the flag selects the fast
path. -/
theorem normalize_roundtrip {sz B start : Nat} {hasPd : Bool} {s : SBState}
    {L : List Nat} {p : Nat} {s1 : SBState}
    (hw : WF sz B start) (hr : Reach sz B start hasPd s L)
    (hm : malloc s = (some p, s1)) :
    normalize s1 p = p ∧
    (∀ j, j < s1.objectSize → normalize s1 (p + j) = p) ∧
    (s1.objectSizeIsPowerOfTwo = true →
      ∀ q : Nat, q &&& (s1.objectSize - 1) = q % s1.objectSize) := by
  have hinv := reach_inv hw hr
  have hinv1 := inv_alloc_some hinv hm
  have hszpos : 0 < s1.objectSize := hinv1.sz_pos hw
  have hpw1 : s1.objectSizeIsPowerOfTwo = isPowerOfTwoFlag s1.objectSize := by
    rw [hinv1.hsz]
    exact hinv1.hpw
  obtain ⟨k, hk, hpk⟩ := hinv1.mem_touched
    (List.mem_append_left _ (List.mem_append_left _ (List.mem_cons_self p L)))
  refine ⟨?_, ?_, ?_⟩
  · rw [hpk]
    have := normalize_slot s1 hpw1 k 0 hszpos
    simpa using this
  · intro j hj
    rw [hpk]
    exact normalize_slot s1 hpw1 k j hj
  · intro hflag q
    exact and_mask_eq_mod (hpw1 ▸ hflag) q

/-- Witness for C9 on the first allocation of a fresh superblock. -/
theorem normalize_roundtrip_witness :
    normalize (malloc (mkState 16 32 16 false)).2 16 = 16 :=
  (@normalize_roundtrip 16 32 16 false (mkState 16 32 16 false) [] 16
    (malloc (mkState 16 32 16 false)).2 (by decide) Reach.init (by decide)).1

end Zeus
